import Mathlib

/-!
# awesome-id: a Snowflake identifier generator

A shallow embedding of `snow_flake.go`.  Values of Go type `int64` are integers
of `Int` that lie in `[-2^63, 2^63)`; every arithmetic operation that can leave
that interval is wrapped back into it by `wrap64` (two's complement).  The
system clock is the list of the values that successive `time.Now().UnixNano()`
calls return; a function that needs a reading when the list is used up has no
result (`none`): the call does not return within the given readings.  The
mutex of `IdWorker` is not modelled: the calls are run one after another.
-/

namespace AwesomeId

/-! ## int64 arithmetic -/

/-- Two's complement wrap of an integer into `[-2^63, 2^63)`. -/
def wrap64 (x : Int) : Int := (x + 2 ^ 63) % 2 ^ 64 - 2 ^ 63

/-- Membership in the range of Go's `int64`. -/
def IsInt64 (x : Int) : Prop := -(2 ^ 63) ≤ x ∧ x < 2 ^ 63

instance (x : Int) : Decidable (IsInt64 x) := by
  unfold IsInt64; exact inferInstance

/-- Go `a + b` on `int64`. -/
def add64 (a b : Int) : Int := wrap64 (a + b)

/-- Go `a - b` on `int64`. -/
def sub64 (a b : Int) : Int := wrap64 (a - b)

/-- Go `a * b` on `int64`. -/
def mul64 (a b : Int) : Int := wrap64 (a * b)

/-- Go `a / b` on `int64`: the quotient is truncated towards zero. -/
def div64 (a b : Int) : Int := wrap64 (Int.tdiv a b)

/-- Go `a % b` on `int64`: the remainder has the sign of the dividend. -/
def mod64 (a b : Int) : Int := Int.tmod a b

/-- Go `a << k` on `int64`: multiplication by `2^k`, high bits discarded. -/
def shl64 (a : Int) (k : Nat) : Int := wrap64 (a * 2 ^ k)

/-- Go `a >> k` on `int64`: the arithmetic (sign-preserving) right shift. -/
def shr64 (a : Int) (k : Nat) : Int := Int.shiftRight a k

/-- The 64-bit pattern of an `int64`, as a natural number below `2^64`. -/
def bits64 (a : Int) : Nat := (a % 2 ^ 64).toNat

/-- Go `a & b` on `int64`: bitwise and of the two 64-bit patterns. -/
def and64 (a b : Int) : Int := wrap64 (Nat.land (bits64 a) (bits64 b))

/-- Go `a | b` on `int64`: bitwise or of the two 64-bit patterns. -/
def or64 (a b : Int) : Int := wrap64 (Nat.lor (bits64 a) (bits64 b))

/-! ## Constants (`snow_flake.go`, lines 10-40)

The constants are untyped Go constants: their defining expressions are
evaluated exactly, without wrapping. -/

def epoch : Int := 1514736000000

def workerIdBits : Nat := 5

def dataCenterIdBits : Nat := 5

def sequenceBits : Nat := 12

/-- The source has `-1 ^ (-1 << workerIdBits)`. -/
def maxWorkerId : Int := Int.xor (-1) (-1 * 2 ^ workerIdBits)

/-- The source has `-1 ^ (-1 << dataCenterIdBits)`. -/
def maxDataCenterId : Int := Int.xor (-1) (-1 * 2 ^ dataCenterIdBits)

def workerIdLeftShift : Nat := sequenceBits

def dataCenterIdLeftShift : Nat := sequenceBits + workerIdBits

def timestampLeftShift : Nat := sequenceBits + workerIdBits + dataCenterIdBits

/-- The source has `-1 ^ (-1 << sequenceBits)`. -/
def sequenceMask : Int := Int.xor (-1) (-1 * 2 ^ sequenceBits)

def sequence : Int := 0

def lastTimestamp : Int := -1

def maxIdQuantity : Int := 100

/-- The value of `int64(time.Millisecond)`: nanoseconds in a millisecond. -/
def millisecond : Int := 1000000

/-! ## Data model -/

/-- The generator `IdWorker` without its mutex. -/
structure IdWorker where
  epoch : Int
  lastTimestamp : Int
  dataCenterId : Int
  workerId : Int
  sequence : Int
  deriving DecidableEq, Repr

/-- The errors of the package.  Each constructor stands for one format string
of the source and carries the integer printed in its place-holder. -/
inductive Error where
  /-- worker Id can't be greater than `max` or less than 0 -/
  | workerIdRange (max : Int)
  /-- datacenter Id can't be greater than `max` or less than 0 -/
  | dataCenterIdRange (max : Int)
  /-- quantity can't be greater than `max` or less than 0 -/
  | quantityRange (max : Int)
  /-- Clock moved backwards.  Refusing to generate id for `ms` milliseconds -/
  | clockBackwards (ms : Int)
  deriving DecidableEq, Repr

deriving instance DecidableEq for Except

/-- The readings of `time.Now().UnixNano()` still to come, in order. -/
abbrev Clock := List Int

/-- The fields returned by `ParseId`; `sec` and `nsec` are the two arguments
handed to `time.Unix` to build the returned `time.Time`. -/
structure Parsed where
  timestamp : Int
  dataCenterId : Int
  workerId : Int
  sequence : Int
  sec : Int
  nsec : Int
  deriving DecidableEq, Repr

/-! ## Operations -/

/-- Constructor `NewIdWorker` (lines 51-66). -/
def NewIdWorker (workerId dataCenterId : Int) : Except Error IdWorker :=
  if workerId > maxWorkerId ∨ workerId < 0 then
    Except.error (Error.workerIdRange maxWorkerId)
  else if dataCenterId > maxDataCenterId ∨ dataCenterId < 0 then
    Except.error (Error.dataCenterIdRange maxDataCenterId)
  else
    Except.ok
      { epoch := epoch
        lastTimestamp := lastTimestamp
        dataCenterId := dataCenterId
        workerId := workerId
        sequence := sequence }

/-- The conversion done by `timeGen` on one reading:
`UnixNano() / int64(time.Millisecond)`. -/
def unixMilli (nanos : Int) : Int := div64 nanos millisecond

/-- Function `timeGen` (lines 133-135): takes the next reading of the clock. -/
def timeGen : Clock → Option (Int × Clock)
  | [] => none
  | nanos :: rest => some (unixMilli nanos, rest)

/-- Function `tilNextMillis` (lines 140-146): reads the clock until a reading
is strictly greater than `lastTimestamp`. -/
def tilNextMillis (lastTimestamp : Int) : Clock → Option (Int × Clock)
  | [] => none
  | nanos :: rest =>
    if unixMilli nanos ≤ lastTimestamp then tilNextMillis lastTimestamp rest
    else some (unixMilli nanos, rest)

/-- The identifier composed at lines 127-130 from the generator's fields. -/
def composeId (iw : IdWorker) (timestamp : Int) : Int :=
  or64
    (or64
      (or64 (shl64 (sub64 timestamp iw.epoch) timestampLeftShift)
        (shl64 iw.dataCenterId dataCenterIdLeftShift))
      (shl64 iw.workerId workerIdLeftShift))
    iw.sequence

/-- Lines 120-130 of `nextId`: stores the timestamp and returns the identifier
with a nil error. -/
def emitId (iw : IdWorker) (timestamp : Int) (clk : Clock) :
    Option ((Int × Option Error) × IdWorker × Clock) :=
  some ((composeId iw timestamp, none), { iw with lastTimestamp := timestamp }, clk)

/-- Method `nextId` (lines 100-131).  The result holds the returned pair
`(int64, error)`, the generator after the call and the readings left. -/
def nextId (iw : IdWorker) (clk : Clock) :
    Option ((Int × Option Error) × IdWorker × Clock) :=
  match timeGen clk with
  | none => none
  | some (timestamp, clk1) =>
    if timestamp < iw.lastTimestamp then
      some ((0, some (Error.clockBackwards (sub64 iw.lastTimestamp timestamp))), iw, clk1)
    else if timestamp = iw.lastTimestamp then
      let iw1 := { iw with sequence := and64 (add64 iw.sequence 1) sequenceMask }
      if iw1.sequence = 0 then
        match tilNextMillis timestamp clk1 with
        | none => none
        | some (timestamp2, clk2) => emitId iw1 timestamp2 clk2
      else emitId iw1 timestamp clk1
    else emitId { iw with sequence := 0 } timestamp clk1

/-- Method `GetId` (lines 68-72): `nextId` under the lock. -/
def GetId (iw : IdWorker) (clk : Clock) :
    Option ((Int × Option Error) × IdWorker × Clock) :=
  nextId iw clk

/-- The loop of `GetIds` (lines 84-86): `n` calls of `nextId`, the error of
each call dropped and its integer stored. -/
def GetIdsLoop : Nat → IdWorker → Clock → Option (List Int × IdWorker × Clock)
  | 0, iw, clk => some ([], iw, clk)
  | n + 1, iw, clk =>
    match nextId iw clk with
    | none => none
    | some ((id, _), iw1, clk1) =>
      match GetIdsLoop n iw1 clk1 with
      | none => none
      | some (ids, iw2, clk2) => some (id :: ids, iw2, clk2)

/-- Method `GetIds` (lines 74-89). -/
def GetIds (iw : IdWorker) (clk : Clock) (quantity : Int) :
    Option (Except Error (List Int) × IdWorker × Clock) :=
  if quantity > maxIdQuantity ∨ quantity < 0 then
    some (Except.error (Error.quantityRange maxIdQuantity), iw, clk)
  else
    match GetIdsLoop quantity.toNat iw clk with
    | none => none
    | some (ids, iw1, clk1) => some (Except.ok ids, iw1, clk1)

/-- Function `ParseId` (lines 91-98). -/
def ParseId (id : Int) : Parsed :=
  let timestamp := add64 (shr64 id timestampLeftShift) epoch
  { timestamp := timestamp
    dataCenterId := and64 (shr64 id dataCenterIdLeftShift) maxDataCenterId
    workerId := and64 (shr64 id workerIdLeftShift) maxWorkerId
    sequence := and64 id sequenceMask
    sec := div64 timestamp 1000
    nsec := mul64 (mod64 timestamp 1000) millisecond }

/-! ## Runs of one generator -/

/-- Successive calls of `GetId` on one generator: the returned pair and the
generator after the call, for each of at most `n` calls that return within the
readings. -/
def GetIdCalls : Nat → IdWorker → Clock → List ((Int × Option Error) × IdWorker)
  | 0, _, _ => []
  | n + 1, iw, clk =>
    match GetId iw clk with
    | none => []
    | some (r, iw1, clk1) => (r, iw1) :: GetIdCalls n iw1 clk1

/-- The successful calls of a run: those that returned a nil error. -/
def issued (run : List ((Int × Option Error) × IdWorker)) :
    List ((Int × Option Error) × IdWorker) :=
  run.filter (fun c => c.1.2.isNone)

/-- The integers returned by the successful calls of a run, in call order. -/
def issuedIds (run : List ((Int × Option Error) × IdWorker)) : List Int :=
  (issued run).map (fun c => c.1.1)

/-- The pair `(lastTimestamp, sequence)` held by a generator. -/
def statePair (iw : IdWorker) : Int × Int := (iw.lastTimestamp, iw.sequence)

/-- The pairs held by the generator after the successful calls of a run. -/
def issuedPairs (run : List ((Int × Option Error) × IdWorker)) : List (Int × Int) :=
  (issued run).map (fun c => statePair c.2)

/-- Strict lexicographic order on pairs of integers. -/
def lexLt (p q : Int × Int) : Prop := p.1 < q.1 ∨ (p.1 = q.1 ∧ p.2 < q.2)

instance (p q : Int × Int) : Decidable (lexLt p q) := by
  unfold lexLt; exact inferInstance

/-- The generators a program can hold: the one returned by
`NewIdWorker workerId dataCenterId`, and every later state of it after a call of
`GetId` or `GetIds` that returned, whatever `int64` readings the clock gave. -/
inductive Reachable (workerId dataCenterId : Int) : IdWorker → Prop
  | created {iw : IdWorker} :
      NewIdWorker workerId dataCenterId = Except.ok iw → Reachable workerId dataCenterId iw
  | afterGetId {iw iw1 : IdWorker} {clk clk1 : Clock} {r : Int × Option Error} :
      Reachable workerId dataCenterId iw → (∀ x ∈ clk, IsInt64 x) →
      GetId iw clk = some (r, iw1, clk1) → Reachable workerId dataCenterId iw1
  | afterGetIds {iw iw1 : IdWorker} {clk clk1 : Clock} {quantity : Int}
      {r : Except Error (List Int)} :
      Reachable workerId dataCenterId iw → (∀ x ∈ clk, IsInt64 x) →
      GetIds iw clk quantity = some (r, iw1, clk1) → Reachable workerId dataCenterId iw1

/-- The facts that hold of every generator a program can hold: the fields set
by `NewIdWorker workerId dataCenterId` and never changed, and the ranges of
the two fields that `nextId` changes. -/
def Invariant (workerId dataCenterId : Int) (iw : IdWorker) : Prop :=
  iw.epoch = epoch ∧ iw.workerId = workerId ∧ iw.dataCenterId = dataCenterId ∧
  0 ≤ workerId ∧ workerId ≤ 31 ∧ 0 ≤ dataCenterId ∧ dataCenterId ≤ 31 ∧
  0 ≤ iw.sequence ∧ iw.sequence ≤ 4095 ∧
  -9223372036854 ≤ iw.lastTimestamp ∧ iw.lastTimestamp ≤ 9223372036854

/-- The integer a batch keeps of one call of `nextId`: the identifier of a
successful call, 0 for a call that failed. -/
def valueOrZero (r : Int × Option Error) : Int :=
  match r.2 with
  | none => r.1
  | some _ => 0

/-- The generator after a run of calls that started from `iw`. -/
def stateAfter : IdWorker → List ((Int × Option Error) × IdWorker) → IdWorker
  | iw, [] => iw
  | _, c :: rest => stateAfter c.2 rest

/-- The successful calls of a run that stored the timestamp `T`. -/
def issuedAt (T : Int) (run : List ((Int × Option Error) × IdWorker)) :
    List ((Int × Option Error) × IdWorker) :=
  (issued run).filter (fun c => c.2.lastTimestamp = T)

/-! ## int64 arithmetic: lemmas -/

theorem wrap64_eq_self {x : Int} (h : IsInt64 x) : wrap64 x = x := by
  unfold IsInt64 at h
  unfold wrap64
  omega

theorem bits64_cast (a : Int) : ((bits64 a : Nat) : Int) = a % 2 ^ 64 := by
  unfold bits64
  omega

theorem bits64_of_nonneg {a : Int} (h0 : 0 ≤ a) (h1 : a < 2 ^ 64) :
    bits64 a = a.toNat := by
  unfold bits64
  omega

theorem lor_eq_add_of_disjoint (k u v : Nat) (hu : u % 2 ^ k = 0) (hv : v < 2 ^ k) :
    Nat.lor u v = u + v := by
  have h := Nat.mul_add_lt_is_or hv (u / 2 ^ k)
  have hu2 : 2 ^ k * (u / 2 ^ k) = u := by
    have := Nat.div_add_mod u (2 ^ k)
    omega
  rw [hu2] at h
  exact h.symm

theorem or64_eq_add {k : Nat} (hk : k = 12 ∨ k = 17 ∨ k = 22) {a b : Int}
    (ha : IsInt64 a) (hd : a % 2 ^ k = 0) (hb0 : 0 ≤ b) (hb : b < 2 ^ k) :
    or64 a b = a + b := by
  unfold IsInt64 at ha
  have hc := bits64_cast a
  rcases hk with rfl | rfl | rfl
  · have hv : bits64 b = b.toNat := bits64_of_nonneg hb0 (by omega)
    have h := lor_eq_add_of_disjoint 12 (bits64 a) (bits64 b) (by omega) (by omega)
    unfold or64
    rw [h]
    unfold wrap64
    omega
  · have hv : bits64 b = b.toNat := bits64_of_nonneg hb0 (by omega)
    have h := lor_eq_add_of_disjoint 17 (bits64 a) (bits64 b) (by omega) (by omega)
    unfold or64
    rw [h]
    unfold wrap64
    omega
  · have hv : bits64 b = b.toNat := bits64_of_nonneg hb0 (by omega)
    have h := lor_eq_add_of_disjoint 22 (bits64 a) (bits64 b) (by omega) (by omega)
    unfold or64
    rw [h]
    unfold wrap64
    omega

theorem shifts_eq : timestampLeftShift = 22 ∧ dataCenterIdLeftShift = 17 ∧
    workerIdLeftShift = 12 := by decide

/-- The identifier is the sum of its four fields once the three narrow fields
are within their widths. -/
theorem composeId_eq_add (iw : IdWorker) (timestamp : Int)
    (hd0 : 0 ≤ iw.dataCenterId) (hd1 : iw.dataCenterId ≤ 31)
    (hw0 : 0 ≤ iw.workerId) (hw1 : iw.workerId ≤ 31)
    (hs0 : 0 ≤ iw.sequence) (hs1 : iw.sequence ≤ 4095) :
    composeId iw timestamp =
      wrap64 (sub64 timestamp iw.epoch * 2 ^ 22) + iw.dataCenterId * 2 ^ 17 +
        iw.workerId * 2 ^ 12 + iw.sequence := by
  obtain ⟨e1, e2, e3⟩ := shifts_eq
  unfold composeId
  rw [e1, e2, e3]
  have hT : IsInt64 (shl64 (sub64 timestamp iw.epoch) 22) ∧
      shl64 (sub64 timestamp iw.epoch) 22 % 2 ^ 22 = 0 ∧
      shl64 (sub64 timestamp iw.epoch) 22 = wrap64 (sub64 timestamp iw.epoch * 2 ^ 22) := by
    unfold shl64 wrap64 IsInt64
    omega
  obtain ⟨hT1, hT2, hT3⟩ := hT
  have hD : shl64 iw.dataCenterId 17 = iw.dataCenterId * 2 ^ 17 := by
    unfold shl64 wrap64
    omega
  have hW : shl64 iw.workerId 12 = iw.workerId * 2 ^ 12 := by
    unfold shl64 wrap64
    omega
  rw [hD, hW]
  unfold IsInt64 at hT1
  have h1 := or64_eq_add (k := 22) (by decide) (a := shl64 (sub64 timestamp iw.epoch) 22)
    (b := iw.dataCenterId * 2 ^ 17) (by unfold IsInt64; omega) hT2 (by omega) (by omega)
  rw [h1]
  have h2 := or64_eq_add (k := 17) (by decide)
    (a := shl64 (sub64 timestamp iw.epoch) 22 + iw.dataCenterId * 2 ^ 17)
    (b := iw.workerId * 2 ^ 12) (by unfold IsInt64; omega) (by omega) (by omega) (by omega)
  rw [h2]
  have h3 := or64_eq_add (k := 12) (by decide)
    (a := shl64 (sub64 timestamp iw.epoch) 22 + iw.dataCenterId * 2 ^ 17 + iw.workerId * 2 ^ 12)
    (b := iw.sequence) (by unfold IsInt64; omega) (by omega) (by omega) (by omega)
  rw [h3, hT3]


theorem wrap64_isInt64 (x : Int) : IsInt64 (wrap64 x) := by
  unfold IsInt64 wrap64
  omega

theorem consts_eq : maxWorkerId = 31 ∧ maxDataCenterId = 31 ∧ sequenceMask = 4095 ∧
    maxIdQuantity = 100 ∧ millisecond = 1000000 ∧ epoch = 1514736000000 := by decide

theorem land_mask (u k : Nat) : Nat.land u (2 ^ k - 1) = u % 2 ^ k :=
  Nat.and_pow_two_sub_one_eq_mod u k

theorem and64_sequenceMask (a : Int) : and64 a sequenceMask = a % 4096 := by
  have hm : sequenceMask = 4095 := by decide
  have hb : bits64 4095 = 2 ^ 12 - 1 := by decide
  have hc := bits64_cast a
  unfold and64
  rw [hm, hb, land_mask]
  unfold wrap64
  omega

theorem and64_31 (a : Int) : and64 a 31 = a % 32 := by
  have hb : bits64 31 = 2 ^ 5 - 1 := by decide
  have hc := bits64_cast a
  unfold and64
  rw [hb, land_mask]
  unfold wrap64
  omega

theorem shr64_eq_div (a : Int) (k : Nat) : shr64 a k = a / 2 ^ k := by
  unfold shr64
  have := Int.shiftRight_eq_div_pow a k
  simpa using this

/-- Truncated division by a positive literal, in terms of floor division. -/
theorem tdiv_cases (a b : Int) (hb : 0 ≤ b) :
    (0 ≤ a → Int.tdiv a b = a / b) ∧ (a < 0 → Int.tdiv a b = -((-a) / b)) := by
  constructor
  · intro ha
    exact Int.tdiv_eq_ediv ha hb
  · intro ha
    have h1 : Int.tdiv (-a) b = (-a) / b := Int.tdiv_eq_ediv (by omega) hb
    have h2 := Int.neg_tdiv a b
    omega

theorem unixMilli_bound {x : Int} (h : IsInt64 x) :
    -9223372036854 ≤ unixMilli x ∧ unixMilli x ≤ 9223372036854 := by
  unfold IsInt64 at h
  obtain ⟨h1, h2⟩ := tdiv_cases x 1000000 (by omega)
  unfold unixMilli div64 wrap64 millisecond
  rcases Int.lt_or_le x 0 with hx | hx
  · rw [h2 hx]
    omega
  · rw [h1 hx]
    omega

theorem tilNextMillis_some {L t : Int} {clk clk1 : Clock}
    (h : tilNextMillis L clk = some (t, clk1)) :
    L < t ∧ ∃ skipped x, clk = skipped ++ x :: clk1 ∧ t = unixMilli x ∧
      ∀ y ∈ skipped, unixMilli y ≤ L := by
  induction clk with
  | nil => simp [tilNextMillis] at h
  | cons n rest ih =>
    unfold tilNextMillis at h
    split at h
    · rename_i hle
      obtain ⟨h1, skipped, x, h2, h3, h4⟩ := ih h
      refine ⟨h1, n :: skipped, x, by simp [h2], h3, ?_⟩
      intro y hy
      rcases List.mem_cons.mp hy with rfl | hy
      · exact hle
      · exact h4 y hy
    · rename_i hgt
      simp only [Option.some.injEq, Prod.mk.injEq] at h
      obtain ⟨rfl, rfl⟩ := h
      exact ⟨by omega, [], n, by simp, rfl, by simp⟩

theorem nextId_cons (iw : IdWorker) (n : Int) (rest : Clock) :
    nextId iw (n :: rest) =
      if unixMilli n < iw.lastTimestamp then
        some ((0, some (Error.clockBackwards (sub64 iw.lastTimestamp (unixMilli n)))), iw, rest)
      else if unixMilli n = iw.lastTimestamp then
        if and64 (add64 iw.sequence 1) sequenceMask = 0 then
          match tilNextMillis (unixMilli n) rest with
          | none => none
          | some (timestamp2, clk2) =>
            emitId { iw with sequence := and64 (add64 iw.sequence 1) sequenceMask } timestamp2 clk2
        else emitId { iw with sequence := and64 (add64 iw.sequence 1) sequenceMask }
          (unixMilli n) rest
      else emitId { iw with sequence := 0 } (unixMilli n) rest := by
  rfl

/-- What a failing call of `nextId` returns and leaves behind. -/
theorem nextId_err {iw iw1 : IdWorker} {clk clk1 : Clock} {id : Int} {e : Error}
    (h : nextId iw clk = some ((id, some e), iw1, clk1)) :
    id = 0 ∧ iw1 = iw ∧ ∃ n, clk = n :: clk1 ∧ unixMilli n < iw.lastTimestamp ∧
      e = Error.clockBackwards (sub64 iw.lastTimestamp (unixMilli n)) := by
  cases clk with
  | nil => simp [nextId, timeGen] at h
  | cons n rest =>
    rw [nextId_cons] at h
    split at h
    · rename_i hlt
      simp only [Option.some.injEq, Prod.mk.injEq] at h
      obtain ⟨⟨h1, h2⟩, h3, h4⟩ := h
      exact ⟨h1.symm, h3.symm, n, by rw [h4], hlt, h2.symm⟩
    · split at h
      · split at h
        · split at h
          · simp at h
          · simp [emitId] at h
        · simp [emitId] at h
      · simp [emitId] at h

/-- What a successful call of `nextId` returns and leaves behind. -/
theorem nextId_ok {iw iw1 : IdWorker} {clk clk1 : Clock} {id : Int}
    (h : nextId iw clk = some ((id, none), iw1, clk1)) :
    id = composeId iw1 iw1.lastTimestamp ∧ iw1.epoch = iw.epoch ∧
      iw1.workerId = iw.workerId ∧ iw1.dataCenterId = iw.dataCenterId ∧
      0 ≤ iw1.sequence ∧ iw1.sequence ≤ 4095 ∧
      iw.lastTimestamp ≤ iw1.lastTimestamp ∧
      (∃ used x, clk = used ++ x :: clk1 ∧ iw1.lastTimestamp = unixMilli x) ∧
      (0 ≤ iw.sequence → iw.sequence ≤ 4095 → lexLt (statePair iw) (statePair iw1)) := by
  cases clk with
  | nil => simp [nextId, timeGen] at h
  | cons n rest =>
    rw [nextId_cons] at h
    have hmask := and64_sequenceMask (add64 iw.sequence 1)
    split at h
    · simp at h
    · rename_i hnlt
      split at h
      · rename_i heq
        split at h
        · rename_i hzero
          split at h
          · simp at h
          · rename_i t2 clk2 hspin
            obtain ⟨hlt, skipped, x, hclk, ht, -⟩ := tilNextMillis_some hspin
            simp only [emitId, Option.some.injEq, Prod.mk.injEq] at h
            obtain ⟨⟨h1, -⟩, h2, h3⟩ := h
            subst h2 h3
            refine ⟨h1.symm, rfl, rfl, rfl, ?_, ?_, ?_, ⟨n :: skipped, x, ?_, ht⟩, ?_⟩
            · simp only [hzero]; omega
            · simp only [hzero]; omega
            · simp only; omega
            · simp [hclk]
            · intro _ _
              left
              simp only [statePair]
              omega
        · rename_i hnz
          simp only [emitId, Option.some.injEq, Prod.mk.injEq] at h
          obtain ⟨⟨h1, -⟩, h2, h3⟩ := h
          subst h2 h3
          refine ⟨h1.symm, rfl, rfl, rfl, ?_, ?_, ?_, ⟨[], n, by simp, rfl⟩, ?_⟩
          · simp only [hmask]; omega
          · simp only [hmask]; omega
          · simp only; omega
          · intro hs0 hs1
            right
            simp only [statePair, hmask]
            rw [hmask] at hnz
            have ha : add64 iw.sequence 1 = iw.sequence + 1 := by
              unfold add64 wrap64
              omega
            rw [ha] at hnz ⊢
            omega
      · rename_i hne
        simp only [emitId, Option.some.injEq, Prod.mk.injEq] at h
        obtain ⟨⟨h1, -⟩, h2, h3⟩ := h
        subst h2 h3
        refine ⟨h1.symm, rfl, rfl, rfl, ?_, ?_, ?_, ⟨[], n, by simp, rfl⟩, ?_⟩
        · simp
        · simp
        · simp only; omega
        · intro _ _
          left
          simp only [statePair]
          omega

/-! ## Invariant of the reachable generators -/

theorem NewIdWorker_invariant {w dc : Int} {iw : IdWorker}
    (h : NewIdWorker w dc = Except.ok iw) : Invariant w dc iw := by
  obtain ⟨c1, c2, -⟩ := consts_eq
  unfold NewIdWorker at h
  rw [c1, c2] at h
  split at h
  · simp at h
  · split at h
    · simp at h
    · simp only [Except.ok.injEq] at h
      subst h
      exact ⟨rfl, rfl, rfl, by omega, by omega, by omega, by omega,
        by simp [sequence], by simp [sequence], by simp [lastTimestamp],
        by simp [lastTimestamp]⟩

theorem nextId_invariant {w dc : Int} {iw iw1 : IdWorker} {clk clk1 : Clock}
    {r : Int × Option Error} (hi : Invariant w dc iw) (hc : ∀ x ∈ clk, IsInt64 x)
    (h : nextId iw clk = some (r, iw1, clk1)) :
    Invariant w dc iw1 ∧ ∀ x ∈ clk1, IsInt64 x := by
  obtain ⟨id, err⟩ := r
  cases err with
  | some e =>
    obtain ⟨-, h2, n, h3, -⟩ := nextId_err h
    subst h2
    refine ⟨hi, ?_⟩
    intro x hx
    exact hc x (by simp [h3, hx])
  | none =>
    obtain ⟨-, h1, h2, h3, h4, h5, -, ⟨used, x, h6, h7⟩, -⟩ := nextId_ok h
    have hx := unixMilli_bound (hc x (by simp [h6]))
    unfold Invariant at hi ⊢
    refine ⟨?_, ?_⟩
    · rw [h1, h2, h3, h7]
      omega
    · intro y hy
      exact hc y (by simp [h6, hy])

theorem GetIdsLoop_invariant {w dc : Int} (n : Nat) :
    ∀ {iw iw1 : IdWorker} {clk clk1 : Clock} {ids : List Int},
      Invariant w dc iw → (∀ x ∈ clk, IsInt64 x) →
      GetIdsLoop n iw clk = some (ids, iw1, clk1) →
      Invariant w dc iw1 ∧ ∀ x ∈ clk1, IsInt64 x := by
  induction n with
  | zero =>
    intro iw iw1 clk clk1 ids hi hc h
    simp only [GetIdsLoop, Option.some.injEq, Prod.mk.injEq] at h
    obtain ⟨-, h2, h3⟩ := h
    subst h2 h3
    exact ⟨hi, hc⟩
  | succ n ih =>
    intro iw iw1 clk clk1 ids hi hc h
    unfold GetIdsLoop at h
    split at h
    · simp at h
    · rename_i id e iw2 clk2 hstep
      obtain ⟨hi2, hc2⟩ := nextId_invariant hi hc hstep
      split at h
      · simp at h
      · rename_i ids3 iw3 clk3 hrest
        simp only [Option.some.injEq, Prod.mk.injEq] at h
        obtain ⟨-, h2, h3⟩ := h
        subst h2 h3
        exact ih hi2 hc2 hrest

theorem GetIds_invariant {w dc : Int} {iw iw1 : IdWorker} {clk clk1 : Clock} {q : Int}
    {r : Except Error (List Int)} (hi : Invariant w dc iw) (hc : ∀ x ∈ clk, IsInt64 x)
    (h : GetIds iw clk q = some (r, iw1, clk1)) :
    Invariant w dc iw1 ∧ ∀ x ∈ clk1, IsInt64 x := by
  unfold GetIds at h
  split at h
  · simp only [Option.some.injEq, Prod.mk.injEq] at h
    obtain ⟨-, h2, h3⟩ := h
    subst h2 h3
    exact ⟨hi, hc⟩
  · split at h
    · simp at h
    · rename_i ids iw2 clk2 hloop
      simp only [Option.some.injEq, Prod.mk.injEq] at h
      obtain ⟨-, h2, h3⟩ := h
      subst h2 h3
      exact GetIdsLoop_invariant _ hi hc hloop

/-- Every generator a program can hold satisfies the invariant. -/
theorem reachable_invariant {w dc : Int} {iw : IdWorker} (h : Reachable w dc iw) :
    Invariant w dc iw := by
  induction h with
  | created h => exact NewIdWorker_invariant h
  | afterGetId _ hc h ih => exact (nextId_invariant ih hc h).1
  | afterGetIds _ hc h ih => exact (GetIds_invariant ih hc h).1

/-! ## Decoding: lemmas -/

/-- The fields of `ParseId id` in terms of floor division and remainder. -/
theorem ParseId_fields (id : Int) :
    (ParseId id).timestamp = wrap64 (id / 2 ^ 22 + epoch) ∧
      (ParseId id).dataCenterId = id / 2 ^ 17 % 32 ∧
      (ParseId id).workerId = id / 2 ^ 12 % 32 ∧
      (ParseId id).sequence = id % 4096 := by
  obtain ⟨c1, c2, -⟩ := consts_eq
  obtain ⟨e1, e2, e3⟩ := shifts_eq
  refine ⟨?_, ?_, ?_, ?_⟩
  · simp only [ParseId, e1, add64, shr64_eq_div]
  · simp only [ParseId, e2, c2, and64_31, shr64_eq_div]
  · simp only [ParseId, e3, c1, and64_31, shr64_eq_div]
  · simp only [ParseId, and64_sequenceMask]

theorem low_fields (T d w s : Int) (hT : T % 2 ^ 22 = 0)
    (hd0 : 0 ≤ d) (hd1 : d ≤ 31) (hw0 : 0 ≤ w) (hw1 : w ≤ 31) (hs0 : 0 ≤ s) (hs1 : s ≤ 4095) :
    (T + d * 2 ^ 17 + w * 2 ^ 12 + s) / 2 ^ 12 % 32 = w ∧
    (T + d * 2 ^ 17 + w * 2 ^ 12 + s) / 2 ^ 17 % 32 = d ∧
    (T + d * 2 ^ 17 + w * 2 ^ 12 + s) % 4096 = s ∧
    (T + d * 2 ^ 17 + w * 2 ^ 12 + s) / 2 ^ 22 = T / 2 ^ 22 := by
  refine ⟨?_, ?_, ?_, ?_⟩ <;> omega

theorem shifted_delta (t e : Int) (h0 : 0 ≤ t - e) (h1 : t - e < 2 ^ 41) :
    wrap64 (sub64 t e * 2 ^ 22) = (t - e) * 2 ^ 22 := by
  have hs : sub64 t e = t - e := by
    unfold sub64 wrap64
    omega
  rw [hs]
  unfold wrap64
  omega

theorem shifted_facts (x : Int) :
    wrap64 (x * 2 ^ 22) % 2 ^ 22 = 0 ∧ IsInt64 (wrap64 (x * 2 ^ 22)) := by
  unfold wrap64 IsInt64
  omega

/-! ## Construction, composition, decoding, failures -/

/-- C3. Round trip: in a generator created by `NewIdWorker workerId
dataCenterId`, whenever `nextId` returns an identifier, `ParseId` of it gives
back `workerId`, `dataCenterId` (the fields the generator holds) and the
sequence the generator holds after the call; when the timestamp stored by the
call lies in `[epoch, epoch + 2^41)`, `ParseId` gives back that timestamp. -/
theorem ParseId_nextId (workerId dataCenterId : Int) (iw iw1 : IdWorker)
    (clk clk1 : Clock) (id : Int) (hr : Reachable workerId dataCenterId iw)
    (h : nextId iw clk = some ((id, none), iw1, clk1)) :
    (ParseId id).workerId = workerId ∧ (ParseId id).dataCenterId = dataCenterId ∧
      iw.workerId = workerId ∧ iw.dataCenterId = dataCenterId ∧
      (ParseId id).sequence = iw1.sequence ∧
      (0 ≤ iw1.lastTimestamp - epoch → iw1.lastTimestamp - epoch < 2 ^ 41 →
        (ParseId id).timestamp = iw1.lastTimestamp) := by
  obtain ⟨he, hw, hd, hw0, hw1, hd0, hd1, -⟩ := reachable_invariant hr
  obtain ⟨hid, he1, hw2, hd2, hs0, hs1, -⟩ := nextId_ok h
  obtain ⟨pt, pd, pw, ps⟩ := ParseId_fields id
  have hc := composeId_eq_add iw1 iw1.lastTimestamp (by omega) (by omega) (by omega)
    (by omega) hs0 hs1
  rw [← hid, he1, he, hd2, hd, hw2, hw] at hc
  obtain ⟨hT1, hT2⟩ := shifted_facts (sub64 iw1.lastTimestamp epoch)
  obtain ⟨f1, f2, f3, f4⟩ := low_fields _ dataCenterId workerId iw1.sequence hT1
    hd0 hd1 hw0 hw1 hs0 hs1
  refine ⟨?_, ?_, hw, hd, ?_, ?_⟩
  · rw [pw, hc, f1]
  · rw [pd, hc, f2]
  · rw [ps, hc, f3]
  · intro h0 h1
    have hsub := shifted_delta iw1.lastTimestamp epoch h0 h1
    rw [pt, hc, f4, hsub]
    have hep : epoch = 1514736000000 := rfl
    clear hc f1 f2 f3 f4 hT1 hT2 hsub pt pd pw ps hid h hr
    unfold wrap64
    omega

/-- Witness of C3: the first identifier of the generator of `NewIdWorker 5 2`,
issued at `epoch + 123`. -/
theorem ParseId_nextId_witness :
    (ParseId 516182016).workerId = 5 ∧ (ParseId 516182016).dataCenterId = 2 ∧
      (ParseId 516182016).sequence = 0 ∧
      (ParseId 516182016).timestamp = 1514736000123 := by
  have h := ParseId_nextId 5 2 ⟨epoch, -1, 2, 5, 0⟩ ⟨epoch, 1514736000123, 2, 5, 0⟩
    [1514736000123000000] [] 516182016 (Reachable.created (by decide)) (by decide)
  exact ⟨h.1, h.2.1, h.2.2.2.2.1, h.2.2.2.2.2 (by decide) (by decide)⟩

/-- C4. In a generator a program can hold, `nextId` at a reading `now` above
`lastTimestamp` returns `((now - epoch) << 22) | (dataCenterId << 17) |
(workerId << 12) | 0` and leaves the state `(now, 0)`; at a reading equal to
`lastTimestamp` with `sequence < 4095` it returns the same composition with
`sequence + 1` in the low field and leaves the state `(now, sequence + 1)`.
The generator of `NewIdWorker 5 2` read at `epoch + 123` returns
`(123 << 22) | (2 << 17) | (5 << 12) | 0`. -/
theorem nextId_composition (workerId dataCenterId : Int) (iw : IdWorker) (nanos : Int)
    (rest : Clock) (hr : Reachable workerId dataCenterId iw) :
    (iw.lastTimestamp < unixMilli nanos →
      nextId iw (nanos :: rest) =
        some ((or64 (or64 (or64 (shl64 (sub64 (unixMilli nanos) epoch) 22)
                (shl64 dataCenterId 17)) (shl64 workerId 12)) 0, none),
          { iw with lastTimestamp := unixMilli nanos, sequence := 0 }, rest)) ∧
    (unixMilli nanos = iw.lastTimestamp → iw.sequence < 4095 →
      nextId iw (nanos :: rest) =
        some ((or64 (or64 (or64 (shl64 (sub64 (unixMilli nanos) epoch) 22)
                (shl64 dataCenterId 17)) (shl64 workerId 12)) (iw.sequence + 1), none),
          { iw with lastTimestamp := unixMilli nanos, sequence := iw.sequence + 1 }, rest)) ∧
    (∀ iw0, NewIdWorker 5 2 = Except.ok iw0 → unixMilli nanos = epoch + 123 →
      nextId iw0 (nanos :: rest) =
        some ((or64 (or64 (or64 (shl64 123 22) (shl64 2 17)) (shl64 5 12)) 0, none),
          { iw0 with lastTimestamp := epoch + 123, sequence := 0 }, rest)) := by
  obtain ⟨he, hw, hd, -, -, -, -, hs0, hs1, -, -⟩ := reachable_invariant hr
  refine ⟨?_, ?_, ?_⟩
  · intro hlt
    rw [nextId_cons, if_neg (by omega), if_neg (by omega)]
    simp only [emitId, composeId, he, hw, hd]
    rfl
  · intro heq hlt
    have hmask := and64_sequenceMask (add64 iw.sequence 1)
    have ha : add64 iw.sequence 1 = iw.sequence + 1 := by
      unfold add64 wrap64
      omega
    have hseq : and64 (add64 iw.sequence 1) sequenceMask = iw.sequence + 1 := by
      rw [hmask, ha]
      omega
    rw [nextId_cons, if_neg (by omega), if_pos heq, hseq, if_neg (by omega)]
    simp only [emitId, composeId, he, hw, hd]
    rfl
  · intro iw0 h0 hms
    have hi := NewIdWorker_invariant h0
    obtain ⟨he0, hw0, hd0, -, -, -, -, -, -, hl0, hl1⟩ := hi
    have hlast : iw0.lastTimestamp = -1 := by
      unfold NewIdWorker at h0
      split at h0
      · simp at h0
      · split at h0
        · simp at h0
        · simp only [Except.ok.injEq] at h0
          subst h0
          rfl
    have hep : epoch = 1514736000000 := rfl
    rw [nextId_cons, if_neg (by omega), if_neg (by omega)]
    simp only [emitId, composeId, he0, hw0, hd0, hms]
    have hsub : sub64 (epoch + 123) epoch = 123 := by
      unfold sub64 wrap64
      omega
    rw [hsub]
    rfl

/-- Witness of C4: the generator of `NewIdWorker 5 2`, read at `epoch + 123`
and once more in the same millisecond. -/
theorem nextId_composition_witness :
    nextId ⟨epoch, -1, 2, 5, 0⟩ [1514736000123000000] =
        some ((516182016, none), ⟨epoch, 1514736000123, 2, 5, 0⟩, []) ∧
      nextId ⟨epoch, 1514736000123, 2, 5, 0⟩ [1514736000123999999] =
        some ((516182017, none), ⟨epoch, 1514736000123, 2, 5, 1⟩, []) := by
  have hr0 : Reachable 5 2 ⟨epoch, -1, 2, 5, 0⟩ := Reachable.created (by decide)
  have hr1 : Reachable 5 2 ⟨epoch, 1514736000123, 2, 5, 0⟩ :=
    @Reachable.afterGetId 5 2 ⟨epoch, -1, 2, 5, 0⟩ ⟨epoch, 1514736000123, 2, 5, 0⟩
      [1514736000123000000] [] (516182016, none) hr0 (by decide) (by decide)
  refine ⟨?_, ?_⟩
  · have h := (nextId_composition 5 2 _ 1514736000123000000 [] hr0).1 (by decide)
    rw [h]
    decide
  · have h := (nextId_composition 5 2 _ 1514736000123999999 [] hr1).2.1 (by decide) (by decide)
    rw [h]
    decide

/-- C5. Clock regression: in a generator a program can hold, `nextId` returns
an error exactly when the reading is below `lastTimestamp`; the error then
carries `lastTimestamp - now` (50 for a reading 50 ms behind), the integer
returned is 0, and the generator is left as it was, one reading of the clock
used. A call that follows at a reading not below `lastTimestamp` therefore runs
on the unchanged generator: it returns no error, and it returns an identifier
as soon as the reading is above `lastTimestamp`, or the sequence is below 4095,
or a later reading is above this one. -/
theorem nextId_clock_regression (workerId dataCenterId : Int) (iw : IdWorker)
    (nanos : Int) (rest : Clock) (hr : Reachable workerId dataCenterId iw)
    (hn : IsInt64 nanos) :
    ((∃ id e iw1 clk1, nextId iw (nanos :: rest) = some ((id, some e), iw1, clk1)) ↔
        unixMilli nanos < iw.lastTimestamp) ∧
      (unixMilli nanos < iw.lastTimestamp →
        nextId iw (nanos :: rest) =
          some ((0, some (Error.clockBackwards (iw.lastTimestamp - unixMilli nanos))),
            iw, rest)) ∧
      (unixMilli nanos + 50 = iw.lastTimestamp →
        nextId iw (nanos :: rest) = some ((0, some (Error.clockBackwards 50)), iw, rest)) ∧
      (∀ (next : Int) (later : Clock), iw.lastTimestamp ≤ unixMilli next →
        (∀ id e iw2 clk2, nextId iw (next :: later) ≠ some ((id, some e), iw2, clk2)) ∧
        ((iw.lastTimestamp < unixMilli next ∨ iw.sequence < 4095 ∨
            ∃ y ∈ later, unixMilli next < unixMilli y) →
          ∃ id iw2 clk2, nextId iw (next :: later) = some ((id, none), iw2, clk2))) := by
  obtain ⟨-, -, -, -, -, -, -, hs0, hs1, hl0, hl1⟩ := reachable_invariant hr
  obtain ⟨hb0, hb1⟩ := unixMilli_bound hn
  have hfail : unixMilli nanos < iw.lastTimestamp →
      nextId iw (nanos :: rest) =
        some ((0, some (Error.clockBackwards (iw.lastTimestamp - unixMilli nanos))),
          iw, rest) := by
    intro hlt
    have hsub : sub64 iw.lastTimestamp (unixMilli nanos) =
        iw.lastTimestamp - unixMilli nanos := by
      unfold sub64 wrap64
      omega
    rw [nextId_cons, if_pos hlt, hsub]
  refine ⟨⟨?_, ?_⟩, hfail, ?_, ?_⟩
  · rintro ⟨id, e, iw1, clk1, h⟩
    obtain ⟨-, -, n, hcl, hlt, -⟩ := nextId_err h
    simp only [List.cons.injEq] at hcl
    rw [hcl.1]
    exact hlt
  · intro hlt
    exact ⟨_, _, _, _, hfail hlt⟩
  · intro h50
    have h := hfail (by omega)
    have hd : iw.lastTimestamp - unixMilli nanos = 50 := by omega
    rw [hd] at h
    exact h
  · intro next later hge
    refine ⟨?_, ?_⟩
    · intro id e iw2 clk2 h
      obtain ⟨-, -, n, hcl, hlt, -⟩ := nextId_err h
      simp only [List.cons.injEq] at hcl
      rw [← hcl.1] at hlt
      omega
    · intro hprog
      rw [nextId_cons, if_neg (by omega)]
      by_cases heq : unixMilli next = iw.lastTimestamp
      · rw [if_pos heq]
        by_cases hz : and64 (add64 iw.sequence 1) sequenceMask = 0
        · rw [if_pos hz]
          have hseq : iw.sequence = 4095 := by
            rw [and64_sequenceMask] at hz
            unfold add64 wrap64 at hz
            omega
          have hy : ∃ y ∈ later, unixMilli next < unixMilli y := by
            rcases hprog with h1 | h1 | h1
            · omega
            · omega
            · exact h1
          obtain ⟨y, hy1, hy2⟩ := hy
          have hspin : ∀ (c : Clock), y ∈ c →
              ∃ t c2, tilNextMillis (unixMilli next) c = some (t, c2) := by
            intro c
            induction c with
            | nil => intro hm; simp at hm
            | cons z zs ih =>
              intro hm
              unfold tilNextMillis
              by_cases hz2 : unixMilli z ≤ unixMilli next
              · rw [if_pos hz2]
                rcases List.mem_cons.mp hm with rfl | hm2
                · omega
                · exact ih hm2
              · rw [if_neg hz2]
                exact ⟨_, _, rfl⟩
          obtain ⟨t, c2, ht⟩ := hspin later hy1
          rw [ht]
          exact ⟨_, _, _, rfl⟩
        · rw [if_neg hz]
          exact ⟨_, _, _, rfl⟩
      · rw [if_neg heq]
        exact ⟨_, _, _, rfl⟩

/-- Witness of C5: the generator of `NewIdWorker 5 2` after an identifier at
`epoch + 123`, read 50 ms earlier. -/
theorem nextId_clock_regression_witness :
    nextId ⟨epoch, 1514736000123, 2, 5, 0⟩ [1514736000073000000, 1514736000123000000] =
      some ((0, some (Error.clockBackwards 50)), ⟨epoch, 1514736000123, 2, 5, 0⟩,
        [1514736000123000000]) :=
  (nextId_clock_regression 5 2 ⟨epoch, 1514736000123, 2, 5, 0⟩ 1514736000073000000
    [1514736000123000000]
    (@Reachable.afterGetId 5 2 ⟨epoch, -1, 2, 5, 0⟩ ⟨epoch, 1514736000123, 2, 5, 0⟩
      [1514736000123000000] [] (516182016, none) (Reachable.created (by decide))
      (by decide) (by decide))
    (by decide)).2.2.1 (by decide)

/-- C6. `NewIdWorker workerId dataCenterId` returns a generator exactly when
both arguments lie in `[0, 31]`; the generator then holds the two arguments,
`sequence = 0`, `lastTimestamp = -1` and `epoch = 1514736000000`; otherwise an
error and no generator is returned, as for `workerId = 32` and for
`dataCenterId = -1`. -/
theorem NewIdWorker_succeeds_iff (workerId dataCenterId : Int) :
    ((∃ iw, NewIdWorker workerId dataCenterId = Except.ok iw) ↔
        (0 ≤ workerId ∧ workerId ≤ 31 ∧ 0 ≤ dataCenterId ∧ dataCenterId ≤ 31)) ∧
      (∀ iw, NewIdWorker workerId dataCenterId = Except.ok iw →
        iw = ⟨1514736000000, -1, dataCenterId, workerId, 0⟩) ∧
      ((∃ e, NewIdWorker workerId dataCenterId = Except.error e) ↔
        ¬ (0 ≤ workerId ∧ workerId ≤ 31 ∧ 0 ≤ dataCenterId ∧ dataCenterId ≤ 31)) ∧
      NewIdWorker 32 dataCenterId = Except.error (Error.workerIdRange 31) ∧
      (0 ≤ workerId → workerId ≤ 31 →
        NewIdWorker workerId (-1) = Except.error (Error.dataCenterIdRange 31)) := by
  obtain ⟨c1, c2, -⟩ := consts_eq
  unfold NewIdWorker
  rw [c1, c2]
  refine ⟨?_, ?_, ?_, ?_, ?_⟩
  · constructor
    · rintro ⟨iw, h⟩
      split at h
      · simp at h
      · split at h
        · simp at h
        · omega
    · intro h
      rw [if_neg (by omega), if_neg (by omega)]
      exact ⟨_, rfl⟩
  · intro iw h
    split at h
    · simp at h
    · split at h
      · simp at h
      · simp only [Except.ok.injEq] at h
        exact h.symm
  · constructor
    · rintro ⟨e, h⟩
      split at h
      · omega
      · split at h
        · omega
        · simp at h
    · intro h
      by_cases hw : workerId > 31 ∨ workerId < 0
      · rw [if_pos hw]
        exact ⟨_, rfl⟩
      · rw [if_neg hw, if_pos (by omega)]
        exact ⟨_, rfl⟩
  · rw [if_pos (by omega)]
  · intro h0 h1
    rw [if_neg (by omega), if_pos (by omega)]

/-- C7. `GetIds quantity` returns the quantity error exactly when
`quantity < 0` or `quantity > 100`, as for 101 and -1; it then returns no
identifiers, reads nothing from the clock and leaves the generator unchanged.
`GetIds 0` returns the empty list and also leaves the generator and the clock
unchanged. -/
theorem GetIds_quantity_error_iff (iw : IdWorker) (clk : Clock) (quantity : Int) :
    ((∃ e iw1 clk1, GetIds iw clk quantity = some (Except.error e, iw1, clk1)) ↔
        (quantity < 0 ∨ quantity > 100)) ∧
      ((quantity < 0 ∨ quantity > 100) →
        GetIds iw clk quantity = some (Except.error (Error.quantityRange 100), iw, clk)) ∧
      GetIds iw clk 101 = some (Except.error (Error.quantityRange 100), iw, clk) ∧
      GetIds iw clk (-1) = some (Except.error (Error.quantityRange 100), iw, clk) ∧
      GetIds iw clk 0 = some (Except.ok [], iw, clk) := by
  have hq : maxIdQuantity = 100 := rfl
  have hfail : (quantity < 0 ∨ quantity > 100) →
      GetIds iw clk quantity = some (Except.error (Error.quantityRange 100), iw, clk) := by
    intro h
    unfold GetIds
    rw [hq, if_pos (by omega)]
  refine ⟨⟨?_, ?_⟩, hfail, ?_, ?_, ?_⟩
  · rintro ⟨e, iw1, clk1, h⟩
    unfold GetIds at h
    rw [hq] at h
    split at h
    · omega
    · split at h
      · simp at h
      · simp at h
  · intro h
    exact ⟨_, _, _, hfail h⟩
  · rfl
  · rfl
  · rfl

/-- C8. The batch path drops the error of a failing `nextId`: with the second
reading 50 ms behind the first, `GetIds 2` on the generator of
`NewIdWorker 1 1` returns a nil error and the list `[419565568, 0]`, the 0
standing where the clock regression happened. -/
theorem GetIds_drops_clock_regression :
    NewIdWorker 1 1 = Except.ok ⟨epoch, -1, 1, 1, 0⟩ ∧
      GetIds ⟨epoch, -1, 1, 1, 0⟩ [1514736000100000000, 1514736000050000000] 2 =
        some (Except.ok [419565568, 0], ⟨epoch, 1514736000100, 1, 1, 0⟩, []) ∧
      GetIdCalls 2 ⟨epoch, -1, 1, 1, 0⟩ [1514736000100000000, 1514736000050000000] =
        [((419565568, none), ⟨epoch, 1514736000100, 1, 1, 0⟩),
         ((0, some (Error.clockBackwards 50)), ⟨epoch, 1514736000100, 1, 1, 0⟩)] := by
  decide

/-- C10. `ParseId` is a total function of the `int64` values and loses
nothing: no operation in it overflows (the timestamp is the exact sum
`(id >> 22) + epoch`, the seconds and nanoseconds handed to `time.Unix` are the
exact quotient and the exact product), and packing the four fields again as
`((timestamp - epoch) << 22) | (dataCenterId << 17) | (workerId << 12) |
sequence` gives `id` back, for negative `id` too. -/
theorem ParseId_lossless (id : Int) (h : IsInt64 id) :
    (ParseId id).timestamp = id / 2 ^ 22 + epoch ∧
      (ParseId id).sec = Int.tdiv (ParseId id).timestamp 1000 ∧
      (ParseId id).nsec = Int.tmod (ParseId id).timestamp 1000 * 1000000 ∧
      or64 (or64 (or64 (shl64 (sub64 (ParseId id).timestamp epoch) 22)
            (shl64 (ParseId id).dataCenterId 17)) (shl64 (ParseId id).workerId 12))
          (ParseId id).sequence = id := by
  obtain ⟨ht, hd, hw, hs⟩ := ParseId_fields id
  have hep : epoch = 1514736000000 := rfl
  unfold IsInt64 at h
  have ht2 : (ParseId id).timestamp = id / 2 ^ 22 + epoch := by
    rw [ht]
    unfold wrap64
    omega
  have hq := tdiv_cases (ParseId id).timestamp 1000 (by omega)
  have hsec : (ParseId id).sec = Int.tdiv (ParseId id).timestamp 1000 := by
    show div64 (ParseId id).timestamp 1000 = _
    unfold div64 wrap64
    rcases Int.lt_or_le (ParseId id).timestamp 0 with hneg | hpos
    · rw [hq.2 hneg]
      omega
    · rw [hq.1 hpos]
      omega
  have hnsec : (ParseId id).nsec = Int.tmod (ParseId id).timestamp 1000 * 1000000 := by
    show mul64 (mod64 (ParseId id).timestamp 1000) millisecond = _
    have hm := Int.tmod_add_tdiv (ParseId id).timestamp 1000
    unfold mul64 mod64 wrap64 millisecond
    rcases Int.lt_or_le (ParseId id).timestamp 0 with hneg | hpos
    · have := hq.2 hneg
      omega
    · have := hq.1 hpos
      omega
  refine ⟨ht2, hsec, hnsec, ?_⟩
  have hc := composeId_eq_add
    ⟨epoch, 0, (ParseId id).dataCenterId, (ParseId id).workerId, (ParseId id).sequence⟩
    (ParseId id).timestamp (by simp only [hd]; omega) (by simp only [hd]; omega)
    (by simp only [hw]; omega) (by simp only [hw]; omega)
    (by simp only [hs]; omega) (by simp only [hs]; omega)
  have hgoal : or64 (or64 (or64 (shl64 (sub64 (ParseId id).timestamp epoch) 22)
            (shl64 (ParseId id).dataCenterId 17)) (shl64 (ParseId id).workerId 12))
          (ParseId id).sequence =
      composeId
        ⟨epoch, 0, (ParseId id).dataCenterId, (ParseId id).workerId, (ParseId id).sequence⟩
        (ParseId id).timestamp := rfl
  rw [hgoal, hc]
  simp only [hd, hw, hs, ht2]
  unfold sub64 wrap64
  omega

/-- Witness of C10: the least `int64`, all of whose low fields are zero. -/
theorem ParseId_lossless_witness :
    (ParseId (-9223372036854775808)).timestamp = -684287255552 ∧
      or64 (or64 (or64 (shl64 (sub64 (ParseId (-9223372036854775808)).timestamp epoch) 22)
            (shl64 (ParseId (-9223372036854775808)).dataCenterId 17))
            (shl64 (ParseId (-9223372036854775808)).workerId 12))
          (ParseId (-9223372036854775808)).sequence = -9223372036854775808 := by
  have h := ParseId_lossless (-9223372036854775808) (by decide)
  exact ⟨by decide, h.2.2.2⟩

/-! ## Monotonicity -/

theorem lexLt_trans {p q r : Int × Int} (h1 : lexLt p q) (h2 : lexLt q r) : lexLt p r := by
  unfold lexLt at *
  omega

/-- The fields that `nextId` never changes, and the readings it leaves. -/
theorem nextId_fields {iw iw1 : IdWorker} {clk clk1 : Clock} {r : Int × Option Error}
    (h : nextId iw clk = some (r, iw1, clk1)) :
    iw1.epoch = iw.epoch ∧ iw1.workerId = iw.workerId ∧
      iw1.dataCenterId = iw.dataCenterId ∧ ∃ used, clk = used ++ clk1 := by
  obtain ⟨id, err⟩ := r
  cases err with
  | some e =>
    obtain ⟨-, h2, n, h3, -⟩ := nextId_err h
    subst h2
    exact ⟨rfl, rfl, rfl, [n], by simp [h3]⟩
  | none =>
    obtain ⟨-, h1, h2, h3, -, -, -, ⟨used, x, h6, -⟩, -⟩ := nextId_ok h
    exact ⟨h1, h2, h3, used ++ [x], by simp [h6]⟩

theorem GetIdCalls_succ (n : Nat) (iw : IdWorker) (clk : Clock) :
    GetIdCalls (n + 1) iw clk =
      match nextId iw clk with
      | none => []
      | some (r, iw1, clk1) => (r, iw1) :: GetIdCalls n iw1 clk1 := rfl

/-- In any run of calls, the pairs left by the successful calls increase, and
they are above the starting pair when the starting sequence is in range. -/
theorem issuedPairs_pairwise (n : Nat) :
    ∀ (iw : IdWorker) (clk : Clock),
      List.Pairwise lexLt (issuedPairs (GetIdCalls n iw clk)) ∧
      (0 ≤ iw.sequence → iw.sequence ≤ 4095 →
        ∀ p ∈ issuedPairs (GetIdCalls n iw clk), lexLt (statePair iw) p) := by
  induction n with
  | zero =>
    intro iw clk
    simp [GetIdCalls, issuedPairs, issued]
  | succ n ih =>
    intro iw clk
    rw [GetIdCalls_succ]
    split
    · simp [issuedPairs, issued]
    · rename_i r iw1 clk1 hstep
      obtain ⟨ih1, ih2⟩ := ih iw1 clk1
      obtain ⟨id, err⟩ := r
      cases err with
      | some e =>
        obtain ⟨-, h2, -⟩ := nextId_err hstep
        subst h2
        have hrun : issuedPairs (((id, some e), iw1) :: GetIdCalls n iw1 clk1) =
            issuedPairs (GetIdCalls n iw1 clk1) := by
          simp [issuedPairs, issued]
        rw [hrun]
        exact ⟨ih1, ih2⟩
      | none =>
        obtain ⟨-, -, -, -, hs0, hs1, -, -, hlex⟩ := nextId_ok hstep
        have hrun : issuedPairs (((id, none), iw1) :: GetIdCalls n iw1 clk1) =
            statePair iw1 :: issuedPairs (GetIdCalls n iw1 clk1) := by
          simp [issuedPairs, issued]
        rw [hrun]
        refine ⟨List.pairwise_cons.mpr ⟨ih2 hs0 hs1, ih1⟩, ?_⟩
        intro h0 h1 p hp
        rcases List.mem_cons.mp hp with rfl | hp
        · exact hlex h0 h1
        · exact lexLt_trans (hlex h0 h1) (ih2 hs0 hs1 p hp)

/-- C2. In any run of calls on one generator, for any readings of the clock,
the pair `(lastTimestamp, sequence)` held after a successful call is strictly
above, in lexicographic order, the pair held after every earlier successful
call; in a generator a program can hold it is also above the pair held when
the run started. -/
theorem statePair_strictly_increasing (n : Nat) (iw : IdWorker) (clk : Clock) :
    List.Pairwise lexLt (issuedPairs (GetIdCalls n iw clk)) ∧
      (∀ workerId dataCenterId, Reachable workerId dataCenterId iw →
        ∀ p ∈ issuedPairs (GetIdCalls n iw clk), lexLt (statePair iw) p) := by
  obtain ⟨h1, h2⟩ := issuedPairs_pairwise n iw clk
  refine ⟨h1, ?_⟩
  intro w dc hr
  obtain ⟨-, -, -, -, -, -, -, hs0, hs1, -⟩ := reachable_invariant hr
  exact h2 hs0 hs1

/-- Witness of C2: four calls on the generator of `NewIdWorker 5 2`, two in
one millisecond, one with the clock 50 ms behind (it fails and leaves no
pair), one a millisecond later. -/
theorem statePair_strictly_increasing_witness :
    issuedPairs (GetIdCalls 4 ⟨epoch, -1, 2, 5, 0⟩
        [1514736000123000000, 1514736000123500000, 1514736000073000000,
          1514736000124000000]) =
        [(1514736000123, 0), (1514736000123, 1), (1514736000124, 0)] ∧
      List.Pairwise lexLt
        ([(1514736000123, 0), (1514736000123, 1), (1514736000124, 0)] : List (Int × Int)) := by
  have h := (statePair_strictly_increasing 4 ⟨epoch, -1, 2, 5, 0⟩
    [1514736000123000000, 1514736000123500000, 1514736000073000000,
      1514736000124000000]).1
  have e : issuedPairs (GetIdCalls 4 ⟨epoch, -1, 2, 5, 0⟩
        [1514736000123000000, 1514736000123500000, 1514736000073000000,
          1514736000124000000]) =
      [(1514736000123, 0), (1514736000123, 1), (1514736000124, 0)] := by decide
  rw [e] at h
  exact ⟨e, h⟩

/-- What every successful call of a run returned and left behind. -/
theorem issued_members (w dc : Int) (n : Nat) :
    ∀ (iw : IdWorker) (clk : Clock), iw.epoch = epoch → iw.workerId = w →
      iw.dataCenterId = dc → ∀ c ∈ issued (GetIdCalls n iw clk),
        c.1.1 = composeId c.2 c.2.lastTimestamp ∧ c.2.epoch = epoch ∧
          c.2.workerId = w ∧ c.2.dataCenterId = dc ∧
          0 ≤ c.2.sequence ∧ c.2.sequence ≤ 4095 ∧
          ∃ x ∈ clk, c.2.lastTimestamp = unixMilli x := by
  induction n with
  | zero =>
    intro iw clk _ _ _ c hc
    simp [GetIdCalls, issued] at hc
  | succ n ih =>
    intro iw clk he hw hd c hc
    rw [GetIdCalls_succ] at hc
    split at hc
    · simp [issued] at hc
    · rename_i r iw1 clk1 hstep
      obtain ⟨f1, f2, f3, used, f4⟩ := nextId_fields hstep
      have hrest : ∀ c ∈ issued (GetIdCalls n iw1 clk1),
          c.1.1 = composeId c.2 c.2.lastTimestamp ∧ c.2.epoch = epoch ∧
            c.2.workerId = w ∧ c.2.dataCenterId = dc ∧
            0 ≤ c.2.sequence ∧ c.2.sequence ≤ 4095 ∧
            ∃ x ∈ clk, c.2.lastTimestamp = unixMilli x := by
        intro c hc
        obtain ⟨g1, g2, g3, g4, g5, g6, x, g7, g8⟩ :=
          ih iw1 clk1 (by rw [f1, he]) (by rw [f2, hw]) (by rw [f3, hd]) c hc
        exact ⟨g1, g2, g3, g4, g5, g6, x, by simp [f4, g7], g8⟩
      obtain ⟨id, err⟩ := r
      cases err with
      | some e =>
        have hrun : issued (((id, some e), iw1) :: GetIdCalls n iw1 clk1) =
            issued (GetIdCalls n iw1 clk1) := by
          simp [issued]
        rw [hrun] at hc
        exact hrest c hc
      | none =>
        have hrun : issued (((id, none), iw1) :: GetIdCalls n iw1 clk1) =
            ((id, none), iw1) :: issued (GetIdCalls n iw1 clk1) := by
          simp [issued]
        rw [hrun] at hc
        rcases List.mem_cons.mp hc with rfl | hc
        · obtain ⟨k1, k2, k3, k4, k5, k6, -, ⟨used2, x, k7, k8⟩, -⟩ := nextId_ok hstep
          exact ⟨k1, by rw [k2, he], by rw [k3, hw], by rw [k4, hd], k5, k6, x,
            by simp [k7], k8⟩
        · exact hrest c hc

/-- Between identifiers of one generator with timestamps in
`[epoch, epoch + 2^41)`, the order of the pairs is the order of the integers. -/
theorem composeId_lt_of_lexLt {a b : IdWorker} (w dc : Int)
    (hw0 : 0 ≤ w) (hw1 : w ≤ 31) (hd0 : 0 ≤ dc) (hd1 : dc ≤ 31)
    (ha : a.epoch = epoch ∧ a.workerId = w ∧ a.dataCenterId = dc ∧
      0 ≤ a.sequence ∧ a.sequence ≤ 4095)
    (hb : b.epoch = epoch ∧ b.workerId = w ∧ b.dataCenterId = dc ∧
      0 ≤ b.sequence ∧ b.sequence ≤ 4095)
    (hta : 0 ≤ a.lastTimestamp - epoch ∧ a.lastTimestamp - epoch < 2 ^ 41)
    (htb : 0 ≤ b.lastTimestamp - epoch ∧ b.lastTimestamp - epoch < 2 ^ 41)
    (h : lexLt (statePair a) (statePair b)) :
    composeId a a.lastTimestamp < composeId b b.lastTimestamp := by
  obtain ⟨a1, a2, a3, a4, a5⟩ := ha
  obtain ⟨b1, b2, b3, b4, b5⟩ := hb
  have ca := composeId_eq_add a a.lastTimestamp (by omega) (by omega) (by omega)
    (by omega) a4 a5
  have cb := composeId_eq_add b b.lastTimestamp (by omega) (by omega) (by omega)
    (by omega) b4 b5
  rw [a1, shifted_delta _ _ hta.1 hta.2, a2, a3] at ca
  rw [b1, shifted_delta _ _ htb.1 htb.2, b2, b3] at cb
  rw [ca, cb]
  unfold lexLt statePair at h
  simp only at h
  clear ca cb a1 a2 a3 b1 b2 b3
  omega

/-- The integers returned by the successful calls of a run increase, for a
generator that satisfies the invariant and readings in the 41-bit window. -/
theorem issuedIds_pairwise {w dc : Int} {iw : IdWorker} (hi : Invariant w dc iw)
    (n : Nat) (clk : Clock)
    (hc : ∀ x ∈ clk, 0 ≤ unixMilli x - epoch ∧ unixMilli x - epoch < 2 ^ 41) :
    List.Pairwise (fun a b => a < b) (issuedIds (GetIdCalls n iw clk)) := by
  obtain ⟨he, hw, hd, hw0, hw1, hd0, hd1, -⟩ := hi
  have hp := (issuedPairs_pairwise n iw clk).1
  have hm := issued_members w dc n iw clk he hw hd
  unfold issuedPairs at hp
  unfold issuedIds
  rw [List.pairwise_map] at hp ⊢
  refine List.Pairwise.imp_of_mem ?_ hp
  intro a b ha hb hab
  obtain ⟨a1, a2, a3, a4, a5, a6, x, a7, a8⟩ := hm a ha
  obtain ⟨b1, b2, b3, b4, b5, b6, y, b7, b8⟩ := hm b hb
  rw [a1, b1]
  exact composeId_lt_of_lexLt w dc hw0 hw1 hd0 hd1 ⟨a2, a3, a4, a5, a6⟩
    ⟨b2, b3, b4, b5, b6⟩ (by rw [a8]; exact hc x a7) (by rw [b8]; exact hc y b7) hab

/-- C1. For one generator a program can hold and any run of `GetId` calls
whose clock readings all lie in `[epoch, epoch + 2^41)`, the integers returned
by the successful calls are strictly increasing in call order. -/
theorem issuedIds_strictly_increasing (workerId dataCenterId : Int) (iw : IdWorker)
    (n : Nat) (clk : Clock) (hr : Reachable workerId dataCenterId iw)
    (hc : ∀ x ∈ clk, 0 ≤ unixMilli x - epoch ∧ unixMilli x - epoch < 2 ^ 41) :
    List.Pairwise (fun a b => a < b) (issuedIds (GetIdCalls n iw clk)) :=
  issuedIds_pairwise (reachable_invariant hr) n clk hc

/-- Witness of C1: four calls on the generator of `NewIdWorker 5 2`, two in
one millisecond, one with the clock 50 ms behind, one a millisecond later. -/
theorem issuedIds_strictly_increasing_witness :
    issuedIds (GetIdCalls 4 ⟨epoch, -1, 2, 5, 0⟩
        [1514736000123000000, 1514736000123500000, 1514736000073000000,
          1514736000124000000]) = [516182016, 516182017, 520376320] ∧
      List.Pairwise (fun a b => a < b) ([516182016, 516182017, 520376320] : List Int) := by
  have h := issuedIds_strictly_increasing 5 2 ⟨epoch, -1, 2, 5, 0⟩ 4
    [1514736000123000000, 1514736000123500000, 1514736000073000000, 1514736000124000000]
    (Reachable.created (by decide)) (by decide)
  have e : issuedIds (GetIdCalls 4 ⟨epoch, -1, 2, 5, 0⟩
        [1514736000123000000, 1514736000123500000, 1514736000073000000,
          1514736000124000000]) = [516182016, 516182017, 520376320] := by decide
  rw [e] at h
  exact ⟨e, h⟩

/-! ## Batches -/

theorem GetIdsLoop_succ (n : Nat) (iw : IdWorker) (clk : Clock) :
    GetIdsLoop (n + 1) iw clk =
      match nextId iw clk with
      | none => none
      | some ((id, _), iw1, clk1) =>
        match GetIdsLoop n iw1 clk1 with
        | none => none
        | some (ids, iw2, clk2) => some (id :: ids, iw2, clk2) := rfl

/-- The list built by the loop of `GetIds` holds the integers returned by the
successive calls of `nextId`, one for each call. -/
theorem GetIdsLoop_eq_calls (n : Nat) :
    ∀ {iw iw1 : IdWorker} {clk clk1 : Clock} {ids : List Int},
      GetIdsLoop n iw clk = some (ids, iw1, clk1) →
      ids = (GetIdCalls n iw clk).map (fun c => c.1.1) ∧
        (GetIdCalls n iw clk).length = n := by
  induction n with
  | zero =>
    intro iw iw1 clk clk1 ids h
    simp only [GetIdsLoop, Option.some.injEq, Prod.mk.injEq] at h
    simp [GetIdCalls, h.1.symm]
  | succ n ih =>
    intro iw iw1 clk clk1 ids h
    rw [GetIdsLoop_succ] at h
    rw [GetIdCalls_succ]
    split at h
    · simp at h
    · rename_i id e iw2 clk2 hstep
      split at h
      · simp at h
      · rename_i ids3 iw3 clk3 hrest
        obtain ⟨h1, h2⟩ := ih hrest
        simp only [Option.some.injEq, Prod.mk.injEq] at h
        rw [hstep]
        simp only [List.map_cons, List.length_cons, h2, and_true]
        rw [← h.1, h1]

/-- With readings that never go below the timestamp of the generator or below
an earlier reading, no call of a run fails. -/
theorem calls_no_error (n : Nat) :
    ∀ (iw : IdWorker) (clk : Clock),
      List.Pairwise (fun a b => a ≤ b) (iw.lastTimestamp :: clk.map unixMilli) →
      ∀ c ∈ GetIdCalls n iw clk, c.1.2 = none := by
  induction n with
  | zero =>
    intro iw clk _ c hc
    simp [GetIdCalls] at hc
  | succ n ih =>
    intro iw clk hmono c hc
    rw [GetIdCalls_succ] at hc
    split at hc
    · simp at hc
    · rename_i r iw1 clk1 hstep
      obtain ⟨id, err⟩ := r
      cases err with
      | some e =>
        obtain ⟨-, -, x, h3, h4, -⟩ := nextId_err hstep
        subst h3
        have := (List.pairwise_cons.mp hmono).1 (unixMilli x) (by simp)
        omega
      | none =>
        obtain ⟨-, -, -, -, -, -, -, ⟨used, x, k7, k8⟩, -⟩ := nextId_ok hstep
        rcases List.mem_cons.mp hc with rfl | hc
        · rfl
        · refine ih iw1 clk1 ?_ c hc
          have h2 := (List.pairwise_cons.mp hmono).2
          rw [k7, List.map_append, List.map_cons] at h2
          rw [k8]
          exact (List.pairwise_append.mp h2).2.1

/-- With readings that advance at every call, the loop of `GetIds` returns. -/
theorem GetIdsLoop_returns_fresh (n : Nat) :
    ∀ (iw : IdWorker) (post : Clock), n ≤ post.length →
      List.Pairwise (fun a b => a < b) (iw.lastTimestamp :: post.map unixMilli) →
      ∃ r, GetIdsLoop n iw post = some r := by
  induction n with
  | zero =>
    intro iw post _ _
    exact ⟨_, rfl⟩
  | succ n ih =>
    intro iw post hlen hadv
    cases post with
    | nil => simp at hlen
    | cons y ys =>
      have hy : iw.lastTimestamp < unixMilli y :=
        (List.pairwise_cons.mp hadv).1 (unixMilli y) (by simp)
      have htail : List.Pairwise (fun a b => a < b) (unixMilli y :: ys.map unixMilli) := by
        have := (List.pairwise_cons.mp hadv).2
        simpa using this
      rw [GetIdsLoop_succ, nextId_cons, if_neg (by omega), if_neg (by omega)]
      simp only [emitId]
      obtain ⟨r, hr⟩ := ih { iw with sequence := 0, lastTimestamp := unixMilli y } ys
        (by simpa using hlen) htail
      rw [hr]
      exact ⟨_, rfl⟩

/-- The spin of `tilNextMillis` over readings followed by a fresh one ends
either inside the first readings or at the fresh one. -/
theorem tilNextMillis_split (L : Int) (p : Int) (post : Clock) (hp : L < unixMilli p) :
    ∀ (pre : Clock),
      (∃ z pre2, z ∈ pre ∧ (∀ x ∈ pre2, x ∈ pre) ∧
          tilNextMillis L (pre ++ p :: post) = some (unixMilli z, pre2 ++ p :: post)) ∨
        tilNextMillis L (pre ++ p :: post) = some (unixMilli p, post) := by
  intro pre
  induction pre with
  | nil =>
    right
    simp only [List.nil_append, tilNextMillis]
    rw [if_neg (by omega)]
  | cons x xs ih =>
    simp only [List.cons_append, tilNextMillis]
    by_cases hx : unixMilli x ≤ L
    · rw [if_pos hx]
      rcases ih with ⟨z, pre2, h1, h2, h3⟩ | h
      · left
        exact ⟨z, pre2, by simp [h1], fun a ha => by simp [h2 a ha], h3⟩
      · right
        exact h
    · rw [if_neg hx]
      left
      exact ⟨x, xs, by simp, fun a ha => by simp [ha], rfl⟩

/-- With enough fresh readings at the end of the clock, each above the
timestamp of the generator and above all readings before them, the loop of
`GetIds` returns. -/
theorem GetIdsLoop_returns (n : Nat) :
    ∀ (iw : IdWorker) (pre post : Clock), n ≤ post.length →
      List.Pairwise (fun a b => a < b) (post.map unixMilli) →
      (∀ y ∈ post, iw.lastTimestamp < unixMilli y ∧ ∀ x ∈ pre, unixMilli x < unixMilli y) →
      ∃ r, GetIdsLoop n iw (pre ++ post) = some r := by
  induction n with
  | zero =>
    intro iw pre post _ _ _
    exact ⟨_, rfl⟩
  | succ n ih =>
    intro iw pre post hlen hadv hfresh
    cases pre with
    | nil =>
      refine GetIdsLoop_returns_fresh (n + 1) iw post hlen ?_
      exact List.pairwise_cons.mpr ⟨by
        intro t ht
        obtain ⟨y, hy, rfl⟩ := List.mem_map.mp ht
        exact (hfresh y hy).1, hadv⟩
    | cons x xs =>
      have hlen2 : n ≤ post.length := by omega
      have hx : ∀ y ∈ post, unixMilli x < unixMilli y := fun y hy =>
        (hfresh y hy).2 x (by simp)
      have hxs : ∀ y ∈ post, ∀ z ∈ xs, unixMilli z < unixMilli y := fun y hy z hz =>
        (hfresh y hy).2 z (by simp [hz])
      -- the loop on a state whose timestamp is a reading of `x :: xs`
      have hgo : ∀ (iw1 : IdWorker) (pre2 : Clock), (∀ a ∈ pre2, a ∈ xs) →
          (iw1.lastTimestamp = iw.lastTimestamp ∨ ∃ z ∈ x :: xs, iw1.lastTimestamp = unixMilli z) →
          ∃ r, GetIdsLoop n iw1 (pre2 ++ post) = some r := by
        intro iw1 pre2 hsub hlast
        refine ih iw1 pre2 post hlen2 hadv ?_
        intro y hy
        refine ⟨?_, fun a ha => hxs y hy a (hsub a ha)⟩
        rcases hlast with h | ⟨z, hz, h⟩
        · rw [h]
          exact (hfresh y hy).1
        · rw [h]
          exact (hfresh y hy).2 z hz
      rw [GetIdsLoop_succ, List.cons_append, nextId_cons]
      by_cases hlt : unixMilli x < iw.lastTimestamp
      · rw [if_pos hlt]
        obtain ⟨r, hr⟩ := hgo iw xs (fun a ha => ha) (Or.inl rfl)
        simp only [hr]
        exact ⟨_, rfl⟩
      · rw [if_neg hlt]
        by_cases heq : unixMilli x = iw.lastTimestamp
        · rw [if_pos heq]
          by_cases hz : and64 (add64 iw.sequence 1) sequenceMask = 0
          · rw [if_pos hz]
            cases post with
            | nil => simp at hlen
            | cons p ps =>
              rcases tilNextMillis_split (unixMilli x) p ps (hx p (by simp)) xs with
                ⟨z, pre2, h1, h2, h3⟩ | h3
              · rw [h3]
                simp only [emitId]
                obtain ⟨r, hr⟩ := hgo
                  { iw with sequence := and64 (add64 iw.sequence 1) sequenceMask,
                            lastTimestamp := unixMilli z }
                  pre2 h2 (Or.inr ⟨z, by simp [h1], rfl⟩)
                rw [hr]
                exact ⟨_, rfl⟩
              · rw [h3]
                simp only [emitId]
                obtain ⟨r, hr⟩ := GetIdsLoop_returns_fresh n
                  { iw with sequence := and64 (add64 iw.sequence 1) sequenceMask,
                            lastTimestamp := unixMilli p }
                  ps (by simpa using hlen) (by simpa using hadv)
                rw [hr]
                exact ⟨_, rfl⟩
          · rw [if_neg hz]
            simp only [emitId]
            obtain ⟨r, hr⟩ := hgo
              { iw with sequence := and64 (add64 iw.sequence 1) sequenceMask,
                        lastTimestamp := unixMilli x }
              xs (fun a ha => ha) (Or.inr ⟨x, by simp, rfl⟩)
            rw [hr]
            exact ⟨_, rfl⟩
        · rw [if_neg heq]
          simp only [emitId]
          obtain ⟨r, hr⟩ := hgo { iw with sequence := 0, lastTimestamp := unixMilli x }
            xs (fun a ha => ha) (Or.inr ⟨x, by simp, rfl⟩)
          rw [hr]
          exact ⟨_, rfl⟩

/-- C9. For a generator a program can hold, a quantity in `[0, 100]` and
clock readings that all lie in `[epoch, epoch + 2^41)` and never go below the
timestamp of the generator or below an earlier reading: whenever `GetIds`
returns, it returns a nil error and exactly `quantity` integers, strictly
increasing by index; and it does return when the clock ends with at least
`quantity` fresh readings, each above the one before, above the timestamp of
the generator and above all earlier readings. -/
theorem GetIds_strictly_increasing (workerId dataCenterId : Int) (iw : IdWorker)
    (clk : Clock) (quantity : Int) (hr : Reachable workerId dataCenterId iw)
    (hq0 : 0 ≤ quantity) (hq1 : quantity ≤ 100)
    (hrange : ∀ x ∈ clk, 0 ≤ unixMilli x - epoch ∧ unixMilli x - epoch < 2 ^ 41)
    (hmono : List.Pairwise (fun a b => a ≤ b) (iw.lastTimestamp :: clk.map unixMilli)) :
    (∀ r iw1 clk1, GetIds iw clk quantity = some (r, iw1, clk1) →
        ∃ ids, r = Except.ok ids ∧ (ids.length : Int) = quantity ∧
          List.Pairwise (fun a b => a < b) ids) ∧
      (∀ pre post, clk = pre ++ post → quantity.toNat ≤ post.length →
        List.Pairwise (fun a b => a < b) (post.map unixMilli) →
        (∀ y ∈ post, iw.lastTimestamp < unixMilli y ∧
          ∀ x ∈ pre, unixMilli x < unixMilli y) →
        ∃ ids iw1 clk1, GetIds iw clk quantity = some (Except.ok ids, iw1, clk1) ∧
          (ids.length : Int) = quantity ∧ List.Pairwise (fun a b => a < b) ids) := by
  have hq : maxIdQuantity = 100 := rfl
  have hA : ∀ r iw1 clk1, GetIds iw clk quantity = some (r, iw1, clk1) →
      ∃ ids, r = Except.ok ids ∧ (ids.length : Int) = quantity ∧
        List.Pairwise (fun a b => a < b) ids := by
    intro r iw1 clk1 h
    unfold GetIds at h
    rw [hq, if_neg (by omega)] at h
    split at h
    · simp at h
    · rename_i ids iw2 clk2 hloop
      simp only [Option.some.injEq, Prod.mk.injEq] at h
      obtain ⟨h1, h2⟩ := GetIdsLoop_eq_calls _ hloop
      have hnone := calls_no_error quantity.toNat iw clk hmono
      have hall : issued (GetIdCalls quantity.toNat iw clk) =
          GetIdCalls quantity.toNat iw clk := by
        unfold issued
        rw [List.filter_eq_self]
        intro c hc
        rw [hnone c hc]
        rfl
      have hp := issuedIds_pairwise (reachable_invariant hr) quantity.toNat clk hrange
      unfold issuedIds at hp
      rw [hall, ← h1] at hp
      refine ⟨ids, h.1.symm, ?_, hp⟩
      rw [h1, List.length_map, h2]
      omega
  refine ⟨hA, ?_⟩
  intro pre post hclk hlen hadv hfresh
  obtain ⟨⟨ids, iw1, clk1⟩, hloop⟩ :=
    GetIdsLoop_returns quantity.toNat iw pre post hlen hadv hfresh
  have hget : GetIds iw clk quantity = some (Except.ok ids, iw1, clk1) := by
    unfold GetIds
    rw [hq, if_neg (by omega), hclk, hloop]
  obtain ⟨ids2, e1, e2, e3⟩ := hA _ _ _ hget
  simp only [Except.ok.injEq] at e1
  subst e1
  exact ⟨ids, iw1, clk1, hget, e2, e3⟩

/-- Witness of C9: a batch of 3 on the generator of `NewIdWorker 5 2`, the
first two readings in one millisecond. -/
theorem GetIds_strictly_increasing_witness :
    ∃ ids iw1 clk1,
      GetIds ⟨epoch, -1, 2, 5, 0⟩
          [1514736000123000000, 1514736000123500000, 1514736000124000000,
            1514736000125000000, 1514736000126000000] 3 =
        some (Except.ok ids, iw1, clk1) ∧
      (ids.length : Int) = 3 ∧ List.Pairwise (fun a b => a < b) ids :=
  (GetIds_strictly_increasing 5 2 ⟨epoch, -1, 2, 5, 0⟩
    [1514736000123000000, 1514736000123500000, 1514736000124000000,
      1514736000125000000, 1514736000126000000] 3
    (Reachable.created (by decide)) (by decide) (by decide) (by decide) (by decide)).2
    [1514736000123000000, 1514736000123500000]
    [1514736000124000000, 1514736000125000000, 1514736000126000000]
    (by decide) (by decide) (by decide) (by decide)

/-! ## Bit layout -/

/-- The low fields decoded from the identifier of a successful call. -/
theorem ParseId_of_nextId_ok {w dc : Int} {iw iw1 : IdWorker} {clk clk1 : Clock} {id : Int}
    (hi : Invariant w dc iw) (h : nextId iw clk = some ((id, none), iw1, clk1)) :
    (ParseId id).workerId = w ∧ (ParseId id).dataCenterId = dc ∧
      (ParseId id).sequence = iw1.sequence ∧
      id = wrap64 (sub64 iw1.lastTimestamp epoch * 2 ^ 22) + dc * 2 ^ 17 + w * 2 ^ 12 +
        iw1.sequence := by
  obtain ⟨he, hw, hd, hw0, hw1, hd0, hd1, -⟩ := hi
  obtain ⟨hid, he1, hw2, hd2, hs0, hs1, -⟩ := nextId_ok h
  obtain ⟨-, pd, pw, ps⟩ := ParseId_fields id
  have hc := composeId_eq_add iw1 iw1.lastTimestamp (by omega) (by omega) (by omega)
    (by omega) hs0 hs1
  rw [← hid, he1, he, hd2, hd, hw2, hw] at hc
  obtain ⟨hT1, -⟩ := shifted_facts (sub64 iw1.lastTimestamp epoch)
  obtain ⟨f1, f2, f3, -⟩ := low_fields _ dc w iw1.sequence hT1 hd0 hd1 hw0 hw1 hs0 hs1
  refine ⟨?_, ?_, ?_, hc⟩
  · rw [pw, hc, f1]
  · rw [pd, hc, f2]
  · rw [ps, hc, f3]

/-- C11. For every `int64` value `id`, `ParseId id` returns the sequence
`id mod 4096` (bits 11..0), the workerId `floor(id / 2^12) mod 32` (bits
16..12), the dataCenterId `floor(id / 2^17) mod 32` (bits 21..17) and the
timestamp `floor(id / 2^22) + 1514736000000`, the division rounding towards
minus infinity as the arithmetic shift does; so the three low fields lie in
`[0, 4095]`, `[0, 31]` and `[0, 31]`, for negative `id` too. -/
theorem ParseId_bit_fields (id : Int) (h : IsInt64 id) :
    (ParseId id).sequence = id % 4096 ∧
      (ParseId id).workerId = id / 2 ^ 12 % 32 ∧
      (ParseId id).dataCenterId = id / 2 ^ 17 % 32 ∧
      (ParseId id).timestamp = id / 2 ^ 22 + 1514736000000 ∧
      (ParseId id).timestamp = Int.floor ((id : ℚ) / 2 ^ 22) + 1514736000000 ∧
      0 ≤ (ParseId id).sequence ∧ (ParseId id).sequence ≤ 4095 ∧
      0 ≤ (ParseId id).workerId ∧ (ParseId id).workerId ≤ 31 ∧
      0 ≤ (ParseId id).dataCenterId ∧ (ParseId id).dataCenterId ≤ 31 := by
  obtain ⟨pt, pd, pw, ps⟩ := ParseId_fields id
  have hep : epoch = 1514736000000 := rfl
  unfold IsInt64 at h
  have ht : (ParseId id).timestamp = id / 2 ^ 22 + 1514736000000 := by
    rw [pt, hep]
    unfold wrap64
    omega
  have hfl : Int.floor ((id : ℚ) / 2 ^ 22) = id / 2 ^ 22 := by
    have h1 : ((2 : ℚ) ^ 22) = ((4194304 : ℕ) : ℚ) := by norm_num
    have h2 : (2 : ℤ) ^ 22 = ((4194304 : ℕ) : ℤ) := by norm_num
    rw [h1, h2, Rat.floor_intCast_div_natCast]
  refine ⟨ps, pw, pd, ht, ?_, ?_, ?_, ?_, ?_, ?_, ?_⟩
  · rw [hfl, ht]
  · rw [ps]; omega
  · rw [ps]; omega
  · rw [pw]; omega
  · rw [pw]; omega
  · rw [pd]; omega
  · rw [pd]; omega

/-- Witness of C11: the identifier -1, all of whose bits are set. -/
theorem ParseId_bit_fields_witness :
    (ParseId (-1)).sequence = 4095 ∧ (ParseId (-1)).workerId = 31 ∧
      (ParseId (-1)).dataCenterId = 31 ∧ (ParseId (-1)).timestamp = 1514735999999 := by
  have h := ParseId_bit_fields (-1) (by decide)
  refine ⟨?_, ?_, ?_, ?_⟩
  · rw [h.1]; decide
  · rw [h.2.1]; decide
  · rw [h.2.2.1]; decide
  · rw [h.2.2.2.1]; decide

/-! ## Nodes, time order, ranges, sign -/

/-- Identifiers of successful calls of different nodes differ: for two
generators created with different pairs `(workerId, dataCenterId)`, in
whatever states they are and whatever their clocks read, an identifier
returned by a successful call of `nextId` on one is never equal to an
identifier returned by a successful call of `nextId` on the other. -/
theorem ids_differ_across_nodes (w1 dc1 w2 dc2 : Int) (iwa iwa1 iwb iwb1 : IdWorker)
    (clka clka1 clkb clkb1 : Clock) (ida idb : Int)
    (hne : (w1, dc1) ≠ (w2, dc2))
    (hra : Reachable w1 dc1 iwa) (hrb : Reachable w2 dc2 iwb)
    (ha : nextId iwa clka = some ((ida, none), iwa1, clka1))
    (hb : nextId iwb clkb = some ((idb, none), iwb1, clkb1)) :
    ida ≠ idb := by
  obtain ⟨a1, a2, -⟩ := ParseId_of_nextId_ok (reachable_invariant hra) ha
  obtain ⟨b1, b2, -⟩ := ParseId_of_nextId_ok (reachable_invariant hrb) hb
  intro heq
  apply hne
  rw [heq] at a1 a2
  rw [← a1, ← a2, ← b1, ← b2]

/-- Example: the generators of `NewIdWorker 5 2` and `NewIdWorker 6 2` read
in the same millisecond. -/
theorem ids_differ_across_nodes_witness : (516182016 : Int) ≠ 516186112 :=
  ids_differ_across_nodes 5 2 6 2 ⟨epoch, -1, 2, 5, 0⟩ ⟨epoch, 1514736000123, 2, 5, 0⟩
    ⟨epoch, -1, 2, 6, 0⟩ ⟨epoch, 1514736000123, 2, 6, 0⟩
    [1514736000123000000] [] [1514736000123000000] [] 516182016 516186112
    (by decide) (Reachable.created (by decide)) (Reachable.created (by decide))
    (by decide) (by decide)

/-- C12. The batch path breaks the uniqueness across nodes: with the second
reading 50 ms behind the first, `GetIds 2` returns a nil error and a list that
ends in 0 on the generator of `NewIdWorker 1 1` and on the generator of
`NewIdWorker 2 1` alike, so the two nodes hand out one and the same integer. -/
theorem GetIds_same_integer_on_two_nodes :
    NewIdWorker 1 1 = Except.ok ⟨epoch, -1, 1, 1, 0⟩ ∧
      NewIdWorker 2 1 = Except.ok ⟨epoch, -1, 1, 2, 0⟩ ∧
      GetIds ⟨epoch, -1, 1, 1, 0⟩ [1514736000100000000, 1514736000050000000] 2 =
        some (Except.ok [419565568, 0], ⟨epoch, 1514736000100, 1, 1, 0⟩, []) ∧
      GetIds ⟨epoch, -1, 1, 2, 0⟩ [1514736000100000000, 1514736000050000000] 2 =
        some (Except.ok [419569664, 0], ⟨epoch, 1514736000100, 1, 2, 0⟩, []) ∧
      (0 : Int) ∈ [419565568, 0] ∧ (0 : Int) ∈ [419569664, 0] := by
  decide

/-- C18. Time ordering across generators: of two identifiers composed by the
formula of `nextId` from timestamps `t1 < t2` with `0 <= t1 - epoch` and
`t2 - epoch < 2^41`, the one with `t1` is strictly the smaller, whatever the
worker and data-center identifiers in `[0, 31]` and the sequences in
`[0, 4095]` of the two generators are. -/
theorem composeId_ordered_by_timestamp (a b : IdWorker) (t1 t2 : Int)
    (hae : a.epoch = epoch) (hbe : b.epoch = epoch)
    (haw : 0 ≤ a.workerId ∧ a.workerId ≤ 31) (hbw : 0 ≤ b.workerId ∧ b.workerId ≤ 31)
    (had : 0 ≤ a.dataCenterId ∧ a.dataCenterId ≤ 31)
    (hbd : 0 ≤ b.dataCenterId ∧ b.dataCenterId ≤ 31)
    (has : 0 ≤ a.sequence ∧ a.sequence ≤ 4095) (hbs : 0 ≤ b.sequence ∧ b.sequence ≤ 4095)
    (ht : t1 < t2) (h1 : 0 ≤ t1 - epoch) (h2 : t2 - epoch < 2 ^ 41) :
    composeId a t1 < composeId b t2 := by
  have ca := composeId_eq_add a t1 had.1 had.2 haw.1 haw.2 has.1 has.2
  have cb := composeId_eq_add b t2 hbd.1 hbd.2 hbw.1 hbw.2 hbs.1 hbs.2
  rw [hae, shifted_delta t1 epoch h1 (by omega)] at ca
  rw [hbe, shifted_delta t2 epoch (by omega) h2] at cb
  rw [ca, cb]
  clear ca cb hae hbe
  omega

/-- Witness of C18: worker 31 of data center 31 with sequence 4095 at
`epoch + 123` against worker 0 of data center 0 with sequence 0 one
millisecond later. -/
theorem composeId_ordered_by_timestamp_witness :
    composeId ⟨epoch, 0, 31, 31, 4095⟩ 1514736000123 <
      composeId ⟨epoch, 0, 0, 0, 0⟩ 1514736000124 :=
  composeId_ordered_by_timestamp ⟨epoch, 0, 31, 31, 4095⟩ ⟨epoch, 0, 0, 0, 0⟩
    1514736000123 1514736000124 rfl rfl (by decide) (by decide) (by decide) (by decide)
    (by decide) (by decide) (by decide) (by decide) (by decide)

/-- C19 as stated fails: 32 lies in `[0, 1023]` and `NewIdWorker 32 0` returns
the worker error, as `NewIdWorker 0 32` returns the data-center error. -/
theorem NewIdWorker_rejects_32 :
    ¬ (∀ workerId dataCenterId : Int, 0 ≤ workerId → workerId ≤ 1023 →
        0 ≤ dataCenterId → dataCenterId ≤ 1023 →
        ∃ iw, NewIdWorker workerId dataCenterId = Except.ok iw) ∧
      NewIdWorker 32 0 = Except.error (Error.workerIdRange 31) ∧
      NewIdWorker 0 32 = Except.error (Error.dataCenterIdRange 31) := by
  refine ⟨?_, by decide, by decide⟩
  intro h
  obtain ⟨iw, hiw⟩ := h 32 0 (by decide) (by decide) (by decide) (by decide)
  have : NewIdWorker 32 0 = Except.error (Error.workerIdRange 31) := by decide
  rw [this] at hiw
  simp at hiw

/-- C19, amended. The allowed range of workerId and of dataCenterId is 0-31,
the range of 5 bits: `NewIdWorker` succeeds for every workerId and
dataCenterId in `[0, 31]`, and fails for every workerId in `[32, 1023]` and
for every dataCenterId in `[32, 1023]`. -/
theorem NewIdWorker_range_five_bits (workerId dataCenterId : Int) :
    (0 ≤ workerId → workerId ≤ 31 → 0 ≤ dataCenterId → dataCenterId ≤ 31 →
        ∃ iw, NewIdWorker workerId dataCenterId = Except.ok iw) ∧
      (32 ≤ workerId → workerId ≤ 1023 →
        NewIdWorker workerId dataCenterId = Except.error (Error.workerIdRange 31)) ∧
      (0 ≤ workerId → workerId ≤ 31 → 32 ≤ dataCenterId → dataCenterId ≤ 1023 →
        NewIdWorker workerId dataCenterId = Except.error (Error.dataCenterIdRange 31)) := by
  obtain ⟨c1, c2, -⟩ := consts_eq
  unfold NewIdWorker
  rw [c1, c2]
  refine ⟨?_, ?_, ?_⟩
  · intro h0 h1 h2 h3
    rw [if_neg (by omega), if_neg (by omega)]
    exact ⟨_, rfl⟩
  · intro h0 h1
    rw [if_pos (by omega)]
  · intro h0 h1 h2 h3
    rw [if_neg (by omega), if_pos (by omega)]

/-- Witness of C19, amended: the largest pair accepted and the smallest
worker identifier refused. -/
theorem NewIdWorker_range_five_bits_witness :
    (∃ iw, NewIdWorker 31 31 = Except.ok iw) ∧
      NewIdWorker 32 31 = Except.error (Error.workerIdRange 31) :=
  ⟨(NewIdWorker_range_five_bits 31 31).1 (by decide) (by decide) (by decide) (by decide),
    (NewIdWorker_range_five_bits 32 31).2.1 (by decide) (by decide)⟩

/-- C20. Sign and width: for a generator a program can hold and a successful
`nextId` whose stored timestamp lies in `[epoch, epoch + 2^41)`, the
identifier is the sum `(timestamp - epoch) * 2^22 + dataCenterId * 2^17 +
workerId * 2^12 + sequence` (the four fields do not overlap and the shift
loses no bit), and it is non-negative and below `2^63`. When
`timestamp - epoch = 2^41` the shifted value does not fit any more and the
identifier is negative. -/
theorem nextId_sign_and_width (workerId dataCenterId : Int) (iw iw1 : IdWorker)
    (clk clk1 : Clock) (id : Int) (hr : Reachable workerId dataCenterId iw)
    (h : nextId iw clk = some ((id, none), iw1, clk1)) :
    (0 ≤ iw1.lastTimestamp - epoch → iw1.lastTimestamp - epoch < 2 ^ 41 →
        id = (iw1.lastTimestamp - epoch) * 2 ^ 22 + dataCenterId * 2 ^ 17 +
            workerId * 2 ^ 12 + iw1.sequence ∧
          0 ≤ id ∧ id < 2 ^ 63) ∧
      (iw1.lastTimestamp - epoch = 2 ^ 41 →
        id = -(2 ^ 63) + dataCenterId * 2 ^ 17 + workerId * 2 ^ 12 + iw1.sequence ∧
          id < 0) := by
  have hi := reachable_invariant hr
  obtain ⟨-, -, -, hid⟩ := ParseId_of_nextId_ok hi h
  obtain ⟨-, -, -, hw0, hw1, hd0, hd1, -⟩ := hi
  obtain ⟨-, -, -, -, hs0, hs1, -⟩ := nextId_ok h
  refine ⟨?_, ?_⟩
  · intro h0 h1
    rw [shifted_delta _ _ h0 h1] at hid
    refine ⟨hid, ?_, ?_⟩
    · rw [hid]; omega
    · rw [hid]; omega
  · intro h41
    have hsh : wrap64 (sub64 iw1.lastTimestamp epoch * 2 ^ 22) = -(2 ^ 63) := by
      have hs : sub64 iw1.lastTimestamp epoch = 2 ^ 41 := by
        unfold sub64 wrap64
        omega
      rw [hs]
      decide
    rw [hsh] at hid
    refine ⟨hid, ?_⟩
    rw [hid]
    omega

/-- Witness of C20: the generator of `NewIdWorker 5 2` read at `epoch + 123`,
and read at `epoch + 2^41`. -/
theorem nextId_sign_and_width_witness :
    ((516182016 : Int) = 123 * 2 ^ 22 + 2 * 2 ^ 17 + 5 * 2 ^ 12 + 0 ∧
        (0 : Int) ≤ 516182016 ∧ (516182016 : Int) < 2 ^ 63) ∧
      (-9223372036854493184 : Int) < 0 :=
  ⟨(nextId_sign_and_width 5 2 ⟨epoch, -1, 2, 5, 0⟩ ⟨epoch, 1514736000123, 2, 5, 0⟩
      [1514736000123000000] [] 516182016 (Reachable.created (by decide)) (by decide)).1
      (by decide) (by decide),
    ((nextId_sign_and_width 5 2 ⟨epoch, -1, 2, 5, 0⟩ ⟨epoch, 3713759255552, 2, 5, 0⟩
      [3713759255552000000] [] (-9223372036854493184) (Reachable.created (by decide))
      (by decide)).2 (by decide)).2⟩

/-! ## Sequence wrap -/

/-- The timestamp decoded from the identifier of a successful call, when the
stored timestamp lies in the 41-bit window. -/
theorem ParseId_timestamp_of_nextId_ok {w dc : Int} {iw iw1 : IdWorker} {clk clk1 : Clock}
    {id : Int} (hi : Invariant w dc iw) (h : nextId iw clk = some ((id, none), iw1, clk1))
    (h0 : 0 ≤ iw1.lastTimestamp - epoch) (h1 : iw1.lastTimestamp - epoch < 2 ^ 41) :
    (ParseId id).timestamp = iw1.lastTimestamp := by
  obtain ⟨-, -, -, hid⟩ := ParseId_of_nextId_ok hi h
  obtain ⟨-, -, -, hw0, hw1, hd0, hd1, -⟩ := hi
  obtain ⟨-, -, -, -, hs0, hs1, -⟩ := nextId_ok h
  obtain ⟨pt, -⟩ := ParseId_fields id
  obtain ⟨hT1, -⟩ := shifted_facts (sub64 iw1.lastTimestamp epoch)
  obtain ⟨-, -, -, f4⟩ := low_fields _ dc w iw1.sequence hT1 hd0 hd1 hw0 hw1 hs0 hs1
  have hsub := shifted_delta iw1.lastTimestamp epoch h0 h1
  rw [pt, hid, f4, hsub]
  have hep : epoch = 1514736000000 := rfl
  clear hid f4 hT1 hsub pt h
  unfold wrap64
  omega

/-- The spin of `tilNextMillis` skips the readings that are not above its
argument and stops at the first one that is. -/
theorem tilNextMillis_first (L y : Int) (later : Clock) (hy : L < unixMilli y) :
    ∀ (skipped : Clock), (∀ z ∈ skipped, unixMilli z ≤ L) →
      tilNextMillis L (skipped ++ y :: later) = some (unixMilli y, later) := by
  intro skipped
  induction skipped with
  | nil =>
    intro _
    simp only [List.nil_append, tilNextMillis]
    rw [if_neg (by omega)]
  | cons z zs ih =>
    intro hs
    simp only [List.cons_append, tilNextMillis]
    rw [if_pos (hs z (by simp))]
    exact ih (fun a ha => hs a (by simp [ha]))

/-- The spin of `tilNextMillis` never ends on readings that are not above its
argument. -/
theorem tilNextMillis_starved (L : Int) :
    ∀ (clk : Clock), (∀ z ∈ clk, unixMilli z ≤ L) → tilNextMillis L clk = none := by
  intro clk
  induction clk with
  | nil => intro _; rfl
  | cons z zs ih =>
    intro hs
    simp only [tilNextMillis]
    rw [if_pos (hs z (by simp))]
    exact ih (fun a ha => hs a (by simp [ha]))

/-- C15. Sequence wrap: in a generator a program can hold, when `nextId`
reads `now = lastTimestamp` while `sequence = 4095`, the sequence wraps to 0
and `tilNextMillis` reads the clock again until a reading is above
`lastTimestamp`. With such a reading in the clock, the call succeeds, leaves
sequence 0 and that first greater reading as `lastTimestamp`, and returns an
identifier whose sequence field is 0 and whose timestamp field is that reading
(when it lies in the 41-bit window). `tilNextMillis` returns only values
above its argument, and without a greater reading the call does not return. -/
theorem nextId_sequence_wrap (workerId dataCenterId : Int) (iw : IdWorker) (nanos y : Int)
    (skipped later : Clock) (hr : Reachable workerId dataCenterId iw)
    (heq : unixMilli nanos = iw.lastTimestamp) (hseq : iw.sequence = 4095)
    (hskip : ∀ z ∈ skipped, unixMilli z ≤ iw.lastTimestamp)
    (hy : iw.lastTimestamp < unixMilli y) :
    (∃ id, nextId iw (nanos :: (skipped ++ y :: later)) =
          some ((id, none), { iw with sequence := 0, lastTimestamp := unixMilli y }, later) ∧
        id = composeId { iw with sequence := 0 } (unixMilli y) ∧
        (ParseId id).sequence = 0 ∧
        (0 ≤ unixMilli y - epoch → unixMilli y - epoch < 2 ^ 41 →
          (ParseId id).timestamp = unixMilli y)) ∧
      (∀ (L t : Int) (clk clk1 : Clock), tilNextMillis L clk = some (t, clk1) → L < t) ∧
      (∀ rest : Clock, (∀ z ∈ rest, unixMilli z ≤ iw.lastTimestamp) →
        nextId iw (nanos :: rest) = none) := by
  have hz : and64 (add64 iw.sequence 1) sequenceMask = 0 := by
    rw [and64_sequenceMask, hseq]
    decide
  refine ⟨?_, ?_, ?_⟩
  · have hspin := tilNextMillis_first (unixMilli nanos) y later (by omega) skipped
      (by rw [heq]; exact hskip)
    have hstep : nextId iw (nanos :: (skipped ++ y :: later)) =
        some ((composeId { iw with sequence := 0 } (unixMilli y), none),
          { iw with sequence := 0, lastTimestamp := unixMilli y }, later) := by
      rw [nextId_cons, if_neg (by omega), if_pos heq, if_pos hz, hspin]
      simp only [emitId, hz]
    refine ⟨_, hstep, rfl, ?_, ?_⟩
    · have := (ParseId_of_nextId_ok (reachable_invariant hr) hstep).2.2.1
      simpa using this
    · intro h0 h1
      exact ParseId_timestamp_of_nextId_ok (reachable_invariant hr) hstep h0 h1
  · intro L t clk clk1 h
    exact (tilNextMillis_some h).1
  · intro rest hrest
    rw [nextId_cons, if_neg (by omega), if_pos heq, if_pos hz,
      tilNextMillis_starved (unixMilli nanos) rest (by rw [heq]; exact hrest)]

/-- Calls in one millisecond raise the sequence one by one: every sequence up
to 4095 is reached by the generator of `NewIdWorker 5 2` at `epoch + 123`. -/
theorem reachable_in_one_millisecond (k : Nat) (hk : k ≤ 4095) :
    Reachable 5 2 ⟨epoch, 1514736000123, 2, 5, (k : Int)⟩ := by
  induction k with
  | zero =>
    exact @Reachable.afterGetId 5 2 ⟨epoch, -1, 2, 5, 0⟩ ⟨epoch, 1514736000123, 2, 5, 0⟩
      [1514736000123000000] [] (516182016, none) (Reachable.created (by decide))
      (by decide) (by decide)
  | succ k ih =>
    have hprev := ih (by omega)
    have hms : unixMilli 1514736000123000000 = 1514736000123 := by decide
    have hseq : and64 (add64 (k : Int) 1) sequenceMask = (k : Int) + 1 := by
      rw [and64_sequenceMask]
      unfold add64 wrap64
      omega
    have hstep : GetId ⟨epoch, 1514736000123, 2, 5, (k : Int)⟩ [1514736000123000000] =
        some ((composeId ⟨epoch, 1514736000123, 2, 5, (k : Int) + 1⟩ 1514736000123, none),
          ⟨epoch, 1514736000123, 2, 5, (k : Int) + 1⟩, []) := by
      unfold GetId
      rw [nextId_cons, hms, if_neg (by simp), if_pos rfl, hseq, if_neg (by omega)]
      rfl
    have := @Reachable.afterGetId 5 2 _ _ [1514736000123000000] [] _ hprev (by decide) hstep
    simpa using this

/-- Witness of C15: the generator of `NewIdWorker 5 2` after 4096 identifiers
at `epoch + 123`, read twice more in that millisecond and then one
millisecond later. -/
theorem nextId_sequence_wrap_witness :
    ∃ id, nextId ⟨epoch, 1514736000123, 2, 5, 4095⟩
          [1514736000123000000, 1514736000123900000, 1514736000124000000] =
        some ((id, none), ⟨epoch, 1514736000124, 2, 5, 0⟩, []) ∧
      (ParseId id).sequence = 0 ∧ (ParseId id).timestamp = 1514736000124 := by
  obtain ⟨id, h1, -, h3, h4⟩ := (nextId_sequence_wrap 5 2
    ⟨epoch, 1514736000123, 2, 5, 4095⟩ 1514736000123000000 1514736000124000000
    [1514736000123900000] [] (reachable_in_one_millisecond 4095 (by decide))
    (by decide) rfl (by decide) (by decide)).1
  exact ⟨id, h1, h3, h4 (by decide) (by decide)⟩

/-! ## Per-millisecond limit -/

/-- A strictly increasing list of integers of `[a, b)` has at most `b - a`
elements. -/
theorem length_le_of_pairwise_lt :
    ∀ (l : List Int) (a b : Int), a ≤ b → List.Pairwise (fun x y => x < y) l →
      (∀ x ∈ l, a ≤ x ∧ x < b) → (l.length : Int) ≤ b - a := by
  intro l
  induction l with
  | nil =>
    intro a b hab _ _
    simp only [List.length_nil, Nat.cast_zero]
    omega
  | cons h t ih =>
    intro a b _ hp hr
    obtain ⟨hp1, hp2⟩ := List.pairwise_cons.mp hp
    obtain ⟨h1, h2⟩ := hr h (by simp)
    have := ih (h + 1) b (by omega) hp2 (by
      intro x hx
      have := hp1 x hx
      have := (hr x (by simp [hx])).2
      omega)
    simp only [List.length_cons, Nat.cast_add, Nat.cast_one]
    omega

/-- The sequence field decoded from a composed identifier. -/
theorem ParseId_composeId_sequence (iw : IdWorker) (timestamp : Int)
    (hd0 : 0 ≤ iw.dataCenterId) (hd1 : iw.dataCenterId ≤ 31)
    (hw0 : 0 ≤ iw.workerId) (hw1 : iw.workerId ≤ 31)
    (hs0 : 0 ≤ iw.sequence) (hs1 : iw.sequence ≤ 4095) :
    (ParseId (composeId iw timestamp)).sequence = iw.sequence := by
  have hc := composeId_eq_add iw timestamp hd0 hd1 hw0 hw1 hs0 hs1
  obtain ⟨-, -, -, ps⟩ := ParseId_fields (composeId iw timestamp)
  obtain ⟨hT1, -⟩ := shifted_facts (sub64 timestamp iw.epoch)
  obtain ⟨-, -, f3, -⟩ := low_fields _ iw.dataCenterId iw.workerId iw.sequence hT1
    hd0 hd1 hw0 hw1 hs0 hs1
  rw [ps, hc, f3]

/-- The sequence field of the identifier of every successful call of a run is
the sequence the generator holds after the call. -/
theorem issued_sequence_field {w dc : Int} {iw : IdWorker} (hi : Invariant w dc iw)
    (n : Nat) (clk : Clock) :
    ∀ c ∈ issued (GetIdCalls n iw clk),
      (ParseId c.1.1).sequence = c.2.sequence ∧ 0 ≤ c.2.sequence ∧ c.2.sequence ≤ 4095 := by
  obtain ⟨he, hw, hd, hw0, hw1, hd0, hd1, -⟩ := hi
  intro c hc
  obtain ⟨a1, -, a3, a4, a5, a6, -⟩ := issued_members w dc n iw clk he hw hd c hc
  refine ⟨?_, a5, a6⟩
  rw [a1]
  exact ParseId_composeId_sequence c.2 c.2.lastTimestamp (by omega) (by omega) (by omega)
    (by omega) a5 a6

/-- Among the successful calls of a run that stored one timestamp, the
sequences increase in call order. -/
theorem issuedAt_pairwise (T : Int) (n : Nat) (iw : IdWorker) (clk : Clock) :
    List.Pairwise (fun a b => a.2.sequence < b.2.sequence)
      (issuedAt T (GetIdCalls n iw clk)) := by
  have hp := (issuedPairs_pairwise n iw clk).1
  unfold issuedPairs at hp
  rw [List.pairwise_map] at hp
  unfold issuedAt
  have hf : List.Pairwise (fun a b => lexLt (statePair a.2) (statePair b.2))
      (List.filter (fun c => decide (c.2.lastTimestamp = T)) (issued (GetIdCalls n iw clk))) :=
    List.Pairwise.sublist (List.filter_sublist _) hp
  refine List.Pairwise.imp_of_mem ?_ hf
  intro a b ha hb hab
  have ta := (List.mem_filter.mp ha).2
  have tb := (List.mem_filter.mp hb).2
  simp only [decide_eq_true_eq] at ta tb
  unfold lexLt statePair at hab
  simp only at hab
  omega

/-- C13. Per-millisecond limit: in any run of calls on a generator a program
can hold, for any readings of the clock and every millisecond `T`, at most
4096 successful calls store the timestamp `T`; their sequences are strictly
increasing in call order, hence pairwise different, each identifier carries
the sequence of its call in its sequence field, and no two of these
identifiers are equal. -/
theorem per_millisecond_limit (workerId dataCenterId : Int) (iw : IdWorker) (n : Nat)
    (clk : Clock) (T : Int) (hr : Reachable workerId dataCenterId iw) :
    (issuedAt T (GetIdCalls n iw clk)).length ≤ 4096 ∧
      List.Pairwise (fun a b => a.2.sequence < b.2.sequence)
        (issuedAt T (GetIdCalls n iw clk)) ∧
      ((issuedAt T (GetIdCalls n iw clk)).map (fun c => c.2.sequence)).Nodup ∧
      (∀ c ∈ issuedAt T (GetIdCalls n iw clk), (ParseId c.1.1).sequence = c.2.sequence) ∧
      ((issuedAt T (GetIdCalls n iw clk)).map (fun c => c.1.1)).Nodup := by
  have hi := reachable_invariant hr
  have hp := issuedAt_pairwise T n iw clk
  have hm : ∀ c ∈ issuedAt T (GetIdCalls n iw clk),
      (ParseId c.1.1).sequence = c.2.sequence ∧ 0 ≤ c.2.sequence ∧ c.2.sequence ≤ 4095 := by
    intro c hc
    exact issued_sequence_field hi n clk c (List.mem_filter.mp hc).1
  refine ⟨?_, hp, ?_, fun c hc => (hm c hc).1, ?_⟩
  · have hl := length_le_of_pairwise_lt
      ((issuedAt T (GetIdCalls n iw clk)).map (fun c => c.2.sequence)) 0 4096 (by omega)
      (List.pairwise_map.mpr hp) (by
        intro x hx
        obtain ⟨c, hc, rfl⟩ := List.mem_map.mp hx
        have := hm c hc
        omega)
    rw [List.length_map] at hl
    omega
  · unfold List.Nodup
    rw [List.pairwise_map]
    refine List.Pairwise.imp ?_ hp
    intro a b hab
    omega
  · unfold List.Nodup
    rw [List.pairwise_map]
    refine List.Pairwise.imp_of_mem ?_ hp
    intro a b ha hb hab heq
    have h1 := (hm a ha).1
    have h2 := (hm b hb).1
    rw [heq] at h1
    omega

/-- Witness of C13: three calls in the millisecond `epoch + 123` and one a
millisecond later, on the generator of `NewIdWorker 5 2`. -/
theorem per_millisecond_limit_witness :
    (issuedAt 1514736000123 (GetIdCalls 4 ⟨epoch, -1, 2, 5, 0⟩
        [1514736000123000000, 1514736000123300000, 1514736000123600000,
          1514736000124000000])).map (fun c => c.1.1) =
        [516182016, 516182017, 516182018] ∧
      ([516182016, 516182017, 516182018] : List Int).Nodup := by
  have h := (per_millisecond_limit 5 2 ⟨epoch, -1, 2, 5, 0⟩ 4
    [1514736000123000000, 1514736000123300000, 1514736000123600000, 1514736000124000000]
    1514736000123 (Reachable.created (by decide))).2.2.2.2
  have e : (issuedAt 1514736000123 (GetIdCalls 4 ⟨epoch, -1, 2, 5, 0⟩
        [1514736000123000000, 1514736000123300000, 1514736000123600000,
          1514736000124000000])).map (fun c => c.1.1) =
      [516182016, 516182017, 516182018] := by decide
  rw [e] at h
  exact ⟨e, h⟩

/-! ## Batch as successive calls, state invariant -/

/-- Every call of a run that failed returned the integer 0, so the integer a
batch keeps of a call is the integer the call returned. -/
theorem calls_valueOrZero (n : Nat) :
    ∀ (iw : IdWorker) (clk : Clock), ∀ c ∈ GetIdCalls n iw clk,
      valueOrZero c.1 = c.1.1 ∧ (c.1.2 ≠ none → c.1.1 = 0) := by
  induction n with
  | zero =>
    intro iw clk c hc
    simp [GetIdCalls] at hc
  | succ n ih =>
    intro iw clk c hc
    rw [GetIdCalls_succ] at hc
    split at hc
    · simp at hc
    · rename_i r iw1 clk1 hstep
      rcases List.mem_cons.mp hc with rfl | hc
      · obtain ⟨id, err⟩ := r
        cases err with
        | none => exact ⟨rfl, fun h => absurd rfl h⟩
        | some e =>
          obtain ⟨h0, -⟩ := nextId_err hstep
          exact ⟨by simp [valueOrZero, h0], fun _ => h0⟩
      · exact ih iw1 clk1 c hc

/-- The generator left by the loop of `GetIds` is the generator left by the
successive calls. -/
theorem GetIdsLoop_stateAfter (n : Nat) :
    ∀ {iw iw1 : IdWorker} {clk clk1 : Clock} {ids : List Int},
      GetIdsLoop n iw clk = some (ids, iw1, clk1) →
      iw1 = stateAfter iw (GetIdCalls n iw clk) := by
  induction n with
  | zero =>
    intro iw iw1 clk clk1 ids h
    simp only [GetIdsLoop, Option.some.injEq, Prod.mk.injEq] at h
    simp [GetIdCalls, stateAfter, h.2.1]
  | succ n ih =>
    intro iw iw1 clk clk1 ids h
    rw [GetIdsLoop_succ] at h
    rw [GetIdCalls_succ]
    split at h
    · simp at h
    · rename_i id e iw2 clk2 hstep
      split at h
      · simp at h
      · rename_i ids3 iw3 clk3 hrest
        simp only [Option.some.injEq, Prod.mk.injEq] at h
        rw [hstep]
        simp only [stateAfter]
        rw [← h.2.1]
        exact ih hrest

/-- The loop of `GetIds` returns exactly when each of the successive calls
returns. -/
theorem GetIdsLoop_returns_iff (n : Nat) :
    ∀ (iw : IdWorker) (clk : Clock),
      (∃ r, GetIdsLoop n iw clk = some r) ↔ (GetIdCalls n iw clk).length = n := by
  induction n with
  | zero =>
    intro iw clk
    simp [GetIdsLoop, GetIdCalls]
  | succ n ih =>
    intro iw clk
    rw [GetIdsLoop_succ, GetIdCalls_succ]
    cases hstep : nextId iw clk with
    | none => simp
    | some res =>
      obtain ⟨⟨id, e⟩, iw1, clk1⟩ := res
      simp only [List.length_cons, add_left_inj]
      rw [← ih iw1 clk1]
      constructor
      · rintro ⟨r, hr⟩
        split at hr
        · simp at hr
        · rename_i ids2 iw2 clk2 hrest
          exact ⟨_, hrest⟩
      · rintro ⟨⟨ids2, iw2, clk2⟩, hr⟩
        rw [hr]
        exact ⟨_, rfl⟩

/-- C17. Batch as repeated single production: for `0 <= quantity <= 100` and
any readings of the clock, `GetIds quantity` returns exactly when each of
`quantity` successive calls of `nextId` on the same generator and readings
returns; it then returns a nil error and a list of exactly `quantity`
integers, the i-th being the identifier of the i-th call, or 0 when that call
failed with a clock regression (the error is dropped and the loop goes on),
and it leaves the generator as those calls leave it. -/
theorem GetIds_as_successive_calls (iw : IdWorker) (clk : Clock) (quantity : Int)
    (hq0 : 0 ≤ quantity) (hq1 : quantity ≤ 100) :
    ((∃ res, GetIds iw clk quantity = some res) ↔
        (GetIdCalls quantity.toNat iw clk).length = quantity.toNat) ∧
      (∀ r iw1 clk1, GetIds iw clk quantity = some (r, iw1, clk1) →
        ∃ ids, r = Except.ok ids ∧ (ids.length : Int) = quantity ∧
          ids = (GetIdCalls quantity.toNat iw clk).map (fun c => valueOrZero c.1) ∧
          (∀ c ∈ GetIdCalls quantity.toNat iw clk, c.1.2 ≠ none → c.1.1 = 0) ∧
          iw1 = stateAfter iw (GetIdCalls quantity.toNat iw clk)) := by
  have hq : maxIdQuantity = 100 := rfl
  have hunf : GetIds iw clk quantity =
      match GetIdsLoop quantity.toNat iw clk with
      | none => none
      | some (ids, iw1, clk1) => some (Except.ok ids, iw1, clk1) := by
    unfold GetIds
    simp only [hq]
    split
    · omega
    · rfl
  refine ⟨?_, ?_⟩
  · rw [← GetIdsLoop_returns_iff, hunf]
    constructor
    · rintro ⟨res, h⟩
      split at h
      · simp at h
      · rename_i ids iw1 clk1 hloop
        exact ⟨_, hloop⟩
    · rintro ⟨⟨ids, iw1, clk1⟩, h⟩
      rw [h]
      exact ⟨_, rfl⟩
  · intro r iw1 clk1 h
    rw [hunf] at h
    split at h
    · simp at h
    · rename_i ids iw2 clk2 hloop
      simp only [Option.some.injEq, Prod.mk.injEq] at h
      obtain ⟨h1, h2⟩ := GetIdsLoop_eq_calls _ hloop
      have hv := calls_valueOrZero quantity.toNat iw clk
      refine ⟨ids, h.1.symm, ?_, ?_, fun c hc => (hv c hc).2, ?_⟩
      · rw [h1, List.length_map, h2]
        omega
      · rw [h1]
        apply List.map_congr_left
        intro c hc
        exact (hv c hc).1.symm
      · rw [← h.2.1]
        exact GetIdsLoop_stateAfter _ hloop

/-- Witness of C17: a batch of 3 on the generator of `NewIdWorker 1 1`, the
second reading 50 ms behind the first. -/
theorem GetIds_as_successive_calls_witness :
    GetIds ⟨epoch, -1, 1, 1, 0⟩
        [1514736000100000000, 1514736000050000000, 1514736000100000000] 3 =
      some (Except.ok [419565568, 0, 419565569], ⟨epoch, 1514736000100, 1, 1, 1⟩, []) ∧
    ∃ ids, (Except.ok [419565568, 0, 419565569] : Except Error (List Int)) = Except.ok ids ∧
      (ids.length : Int) = 3 ∧
      ids = (GetIdCalls (3 : Int).toNat ⟨epoch, -1, 1, 1, 0⟩
        [1514736000100000000, 1514736000050000000, 1514736000100000000]).map
          (fun c => valueOrZero c.1) := by
  have h := (GetIds_as_successive_calls ⟨epoch, -1, 1, 1, 0⟩
    [1514736000100000000, 1514736000050000000, 1514736000100000000] 3
    (by decide) (by decide)).2 _ _ _ (by decide :
      GetIds ⟨epoch, -1, 1, 1, 0⟩
        [1514736000100000000, 1514736000050000000, 1514736000100000000] 3 =
      some (Except.ok [419565568, 0, 419565569], ⟨epoch, 1514736000100, 1, 1, 1⟩, []))
  obtain ⟨ids, e1, e2, e3, -⟩ := h
  exact ⟨by decide, ids, e1, e2, e3⟩

/-- The sequence of a generator a program can hold lies in `[0, 4095]`; the
sequence field of the identifier returned by a successful call of `nextId`,
alone or in a run of calls, is the sequence the generator holds after that
call, and the sequence field of every integer in the list of `GetIds` is at
most 4095. -/
theorem sequence_in_range (workerId dataCenterId : Int) (iw : IdWorker)
    (hr : Reachable workerId dataCenterId iw) :
    0 ≤ iw.sequence ∧ iw.sequence ≤ 4095 ∧
      (∀ clk id iw1 clk1, nextId iw clk = some ((id, none), iw1, clk1) →
        (ParseId id).sequence = iw1.sequence ∧ 0 ≤ iw1.sequence ∧ iw1.sequence ≤ 4095) ∧
      (∀ n clk, ∀ c ∈ issued (GetIdCalls n iw clk),
        (ParseId c.1.1).sequence = c.2.sequence ∧ 0 ≤ c.2.sequence ∧
          c.2.sequence ≤ 4095) ∧
      (∀ clk quantity ids iw1 clk1,
        GetIds iw clk quantity = some (Except.ok ids, iw1, clk1) →
        ∀ id ∈ ids, 0 ≤ (ParseId id).sequence ∧ (ParseId id).sequence ≤ 4095) := by
  have hi := reachable_invariant hr
  obtain ⟨-, -, -, -, -, -, -, hs0, hs1, -⟩ := reachable_invariant hr
  refine ⟨hs0, hs1, ?_, ?_, ?_⟩
  · intro clk id iw1 clk1 h
    obtain ⟨-, -, -, -, k0, k1, -⟩ := nextId_ok h
    exact ⟨(ParseId_of_nextId_ok hi h).2.2.1, k0, k1⟩
  · intro n clk c hc
    exact issued_sequence_field hi n clk c hc
  · intro clk quantity ids iw1 clk1 _ id _
    obtain ⟨-, -, -, ps⟩ := ParseId_fields id
    rw [ps]
    omega

/-- Example: the generator of `NewIdWorker 5 2` after 4095 identifiers in the
millisecond `epoch + 123`, called once more in that millisecond. -/
theorem sequence_in_range_witness :
    (ParseId 516186111).sequence = 4095 ∧ (0 : Int) ≤ 4095 ∧ (4095 : Int) ≤ 4095 :=
  (sequence_in_range 5 2 ⟨epoch, 1514736000123, 2, 5, 4094⟩
    (reachable_in_one_millisecond 4094 (by decide))).2.2.1
    [1514736000123000000] 516186111 ⟨epoch, 1514736000123, 2, 5, 4095⟩ [] (by decide)

/-- C16. The batch path returns an integer whose sequence field is not the
sequence of the generator: with two readings in one millisecond and a third
50 ms behind, `GetIds 3` on the generator of `NewIdWorker 1 1` returns a nil
error and `[419565568, 419565569, 0]`; the third call fails and leaves the
generator with sequence 1, while the sequence field of the 0 stored for it
is 0. -/
theorem GetIds_zero_has_other_sequence :
    NewIdWorker 1 1 = Except.ok ⟨epoch, -1, 1, 1, 0⟩ ∧
      GetIds ⟨epoch, -1, 1, 1, 0⟩
          [1514736000100000000, 1514736000100000000, 1514736000050000000] 3 =
        some (Except.ok [419565568, 419565569, 0], ⟨epoch, 1514736000100, 1, 1, 1⟩, []) ∧
      GetIdCalls 3 ⟨epoch, -1, 1, 1, 0⟩
          [1514736000100000000, 1514736000100000000, 1514736000050000000] =
        [((419565568, none), ⟨epoch, 1514736000100, 1, 1, 0⟩),
         ((419565569, none), ⟨epoch, 1514736000100, 1, 1, 1⟩),
         ((0, some (Error.clockBackwards 50)), ⟨epoch, 1514736000100, 1, 1, 1⟩)] ∧
      (ParseId 0).sequence = 0 ∧
      (ParseId 0).sequence ≠ (⟨epoch, 1514736000100, 1, 1, 1⟩ : IdWorker).sequence := by
  decide

end AwesomeId
